import Mathlib

/-!
Verification of the span-reconciliation and deterministic-pseudonymization
core of the SHIELD repository.

The Python sources are embedded shallowly:

* `FF Parser/data_obfuscator.py` — `PSEUDO_KEY`, `_pseudo_digit_stream`
  (HMAC-SHA256 based digit stream, with SHA-256 and HMAC implemented in
  full below) and `deterministic_numeric_like`;
* `SHIELD/pii_detection.py` — `_sanitize_label`, `_within`,
  `_merge_and_dedupe` and the batch order used by `detect_entities`;
* `SHIELD/utils.py` — `extract_spans_from_smart_config`;
* `SHIELD/feedback_loop.py` — `compute_line_position`, `sanitize_label`,
  `normalize_entity`, `dedupe_overlaps`, `collect_user_feedback`.

Python strings are modelled as `String`/`List Char` (one entry per code
point, as in Python), Python `int` as `Int` (`Nat` where the source only
ever passes naturals), and fallible code returns `Option`.  Character
classification (`str.isdigit`, `\d`, `str.strip`, `str.upper`) is modelled
at ASCII scope.  A Python expression that can raise `IndexError` is
modelled with `Option`.
-/

set_option maxRecDepth 100000

/-! ### Python string helpers -/

/-- The ASCII characters removed by Python `str.strip()`. -/

def pyIsSpace (c : Char) : Bool :=
  c = ' ' || c = '\t' || c = '\n' || c = '\r' || c = '\x0b' || c = '\x0c'

/-- Python `str.lstrip()`. -/

def pyLstrip (l : List Char) : List Char :=
  l.dropWhile pyIsSpace

/-- Python `str.rstrip()`. -/

def pyRstrip (l : List Char) : List Char :=
  (l.reverse.dropWhile pyIsSpace).reverse

/-- Python `str.strip()`. -/

def pyStrip (l : List Char) : List Char :=
  pyRstrip (pyLstrip l)

/-- Normalization of one Python slice index against a length: negative
indices count from the right, and both ends clamp to `[0, n]`. -/

def pySliceIx (n : Nat) (x : Int) : Nat :=
  if x < 0 then ((n : Int) + x).toNat else min x.toNat n

/-- Python `l[a:b]` (slice with step 1), with full negative-index and
clamping semantics. -/

def pySlice {α : Type} (l : List α) (a b : Int) : List α :=
  let lo := pySliceIx l.length a
  let hi := pySliceIx l.length b
  (l.drop lo).take (hi - lo)

/-- Splitting on `'\n'` keeping every (possibly empty) segment:
`splitSegs "a\nb" = [a, b]`, `splitSegs "" = [""]`. -/

def splitSegs : List Char → List (List Char)
  | [] => [[]]
  | c :: cs =>
    if c = '\n' then [] :: splitSegs cs
    else
      match splitSegs cs with
      | [] => [[c]]
      | s :: ss => (c :: s) :: ss

/-- Python `str.splitlines()` at ASCII/`'\n'` scope: every `'\n'` ends a
line and a trailing `'\n'` produces no extra empty line.  (Python also
breaks on `\r`, `\v`, `\f` and some Unicode characters; the theorems about
multi-line texts therefore carry a hypothesis excluding those.) -/

def pySplitlines (l : List Char) : List (List Char) :=
  match l with
  | [] => []
  | _ :: _ =>
    let parts := splitSegs l
    if parts.getLast? = some [] then parts.dropLast else parts

/-- Stable insertion into a sorted list: `x` goes in front of the first
element it is `le`-related to, so equal keys keep their original order. -/

def insertLe {α : Type} (le : α → α → Bool) (x : α) : List α → List α
  | [] => [x]
  | y :: ys => if le x y then x :: y :: ys else y :: insertLe le x ys

/-- Stable sort (model of Python `sorted`/`list.sort`, which is stable):
`le a b` must mean "the key of `a` is at most the key of `b`". -/

def pySortBy {α : Type} (le : α → α → Bool) : List α → List α
  | [] => []
  | x :: xs => insertLe le x (pySortBy le xs)

/-- Python `max(x :: xs, key)`: the first element with the maximal key
(later elements replace the current maximum only when strictly greater). -/

def pyMaxBy {α : Type} (key : α → Int) (x : α) (xs : List α) : α :=
  xs.foldl (fun acc y => if key y > key acc then y else acc) x

/-- UTF-8 encoding of one code point (Python `str.encode("utf-8")`,
one character). -/

def utf8Char (c : Char) : List Nat :=
  let n := c.toNat
  if n < 0x80 then [n]
  else if n < 0x800 then
    [0xc0 ||| (n >>> 6), 0x80 ||| (n &&& 0x3f)]
  else if n < 0x10000 then
    [0xe0 ||| (n >>> 12), 0x80 ||| ((n >>> 6) &&& 0x3f), 0x80 ||| (n &&& 0x3f)]
  else
    [0xf0 ||| (n >>> 18), 0x80 ||| ((n >>> 12) &&& 0x3f),
     0x80 ||| ((n >>> 6) &&& 0x3f), 0x80 ||| (n &&& 0x3f)]

/-- Python `s.encode("utf-8")` as a byte (`Nat < 256`) list. -/

def utf8 (s : String) : List Nat :=
  (s.data.map utf8Char).flatten

/-! ### SHA-256 and HMAC-SHA256 (the primitives behind
`hmac.new(key, msg, hashlib.sha256)` in `data_obfuscator.py`) -/

/-- Truncation to a 32-bit word. -/

def w32 (x : Nat) : Nat := x % 4294967296

/-- Right rotation of a 32-bit word. -/

def rotr32 (n x : Nat) : Nat := w32 ((x >>> n) ||| (x <<< (32 - n)))

/-- SHA-256 Σ₀. -/

def bigS0 (x : Nat) : Nat := rotr32 2 x ^^^ rotr32 13 x ^^^ rotr32 22 x

/-- SHA-256 Σ₁. -/

def bigS1 (x : Nat) : Nat := rotr32 6 x ^^^ rotr32 11 x ^^^ rotr32 25 x

/-- SHA-256 σ₀. -/

def smallS0 (x : Nat) : Nat := rotr32 7 x ^^^ rotr32 18 x ^^^ (x >>> 3)

/-- SHA-256 σ₁. -/

def smallS1 (x : Nat) : Nat := rotr32 17 x ^^^ rotr32 19 x ^^^ (x >>> 10)

/-- SHA-256 Ch. -/

def shaCh (x y z : Nat) : Nat := (x &&& y) ^^^ ((x ^^^ 0xffffffff) &&& z)

/-- SHA-256 Maj. -/

def shaMaj (x y z : Nat) : Nat := (x &&& y) ^^^ (x &&& z) ^^^ (y &&& z)

/-- The 64 SHA-256 round constants. -/

def K64 : List Nat :=
  [1116352408, 1899447441, 3049323471, 3921009573, 961987163,
   1508970993, 2453635748, 2870763221, 3624381080, 310598401,
   607225278, 1426881987, 1925078388, 2162078206, 2614888103,
   3248222580, 3835390401, 4022224774, 264347078, 604807628,
   770255983, 1249150122, 1555081692, 1996064986, 2554220882,
   2821834349, 2952996808, 3210313671, 3336571891, 3584528711,
   113926993, 338241895, 666307205, 773529912, 1294757372,
   1396182291, 1695183700, 1986661051, 2177026350, 2456956037,
   2730485921, 2820302411, 3259730800, 3345764771, 3516065817,
   3600352804, 4094571909, 275423344, 430227734, 506948616,
   659060556, 883997877, 958139571, 1322822218, 1537002063,
   1747873779, 1955562222, 2024104815, 2227730452, 2361852424,
   2428436474, 2756734187, 3204031479, 3329325298]

/-- A SHA-256 working state: eight 32-bit words. -/

abbrev H8 := Nat × Nat × Nat × Nat × Nat × Nat × Nat × Nat

/-- The SHA-256 initial hash value. -/

def shaInit : H8 :=
  (1779033703, 3144134277, 1013904242, 2773480762,
   1359893119, 2600822924, 528734635, 1541459225)

/-- Big-endian 32-bit words from a byte list (groups of four). -/

def toWords : List Nat → List Nat
  | a :: b :: c :: d :: rest =>
    ((((a <<< 8) ||| b) <<< 8 ||| c) <<< 8 ||| d) :: toWords rest
  | _ => []

/-- One message-schedule extension step: append
`σ₁(w[len-2]) + w[len-7] + σ₀(w[len-15]) + w[len-16]` mod 2³². -/

def schedStep (ws : List Nat) : List Nat :=
  let len := ws.length
  ws ++ [w32 (smallS1 (ws.getD (len - 2) 0) + ws.getD (len - 7) 0 +
              smallS0 (ws.getD (len - 15) 0) + ws.getD (len - 16) 0)]

/-- `k` schedule-extension steps. -/

def schedFill : Nat → List Nat → List Nat
  | 0, ws => ws
  | k + 1, ws => schedFill k (schedStep ws)

/-- Extension of the 16 message-schedule words to 64 (each step appends
one word, so `64 - len` steps reach exactly 64 from a 16-word start). -/

def schedExtend (ws : List Nat) : List Nat :=
  (schedFill (64 - ws.length) ws).take 64

/-- One SHA-256 round: `kw` is the `(K64ᵢ, Wᵢ)` pair. -/

def roundStep (st : H8) (kw : Nat × Nat) : H8 :=
  let (a, b, c, d, e, f, g, h) := st
  let t1 := w32 (h + bigS1 e + shaCh e f g + kw.1 + kw.2)
  let t2 := w32 (bigS0 a + shaMaj a b c)
  (w32 (t1 + t2), a, b, c, w32 (d + t1), e, f, g)

/-- SHA-256 compression of one 64-byte block into the running state. -/

def shaCompress (st : H8) (block : List Nat) : H8 :=
  let ws := schedExtend (toWords block)
  let r := (K64.zip ws).foldl roundStep st
  (w32 (r.1 + st.1), w32 (r.2.1 + st.2.1), w32 (r.2.2.1 + st.2.2.1),
   w32 (r.2.2.2.1 + st.2.2.2.1), w32 (r.2.2.2.2.1 + st.2.2.2.2.1),
   w32 (r.2.2.2.2.2.1 + st.2.2.2.2.2.1), w32 (r.2.2.2.2.2.2.1 + st.2.2.2.2.2.2.1),
   w32 (r.2.2.2.2.2.2.2 + st.2.2.2.2.2.2.2))

/-- SHA-256 padding: `0x80`, zeros, then the bit length on eight
big-endian bytes, to a multiple of 64 bytes. -/

def shaPad (msg : List Nat) : List Nat :=
  let bitLen := 8 * msg.length
  let padLen := (119 - (msg.length % 64)) % 64
  msg ++ 0x80 :: List.replicate padLen 0 ++
    (List.range 8).map (fun i => (bitLen >>> (8 * (7 - i))) % 256)

/-- Fuelled cutting into 64-byte blocks (each step drops at least one
element, so `l.length` steps always suffice). -/

def chunksGo : Nat → List Nat → List (List Nat)
  | 0, _ => []
  | _ + 1, [] => []
  | k + 1, x :: xs => ((x :: xs).take 64) :: chunksGo k ((x :: xs).drop 64)

/-- The padded message cut into 64-byte blocks. -/

def chunks64 (l : List Nat) : List (List Nat) :=
  chunksGo l.length l

/-- The four big-endian bytes of a 32-bit word. -/

def wordBytes (w : Nat) : List Nat :=
  [(w >>> 24) % 256, (w >>> 16) % 256, (w >>> 8) % 256, w % 256]

/-- The 32 digest bytes of a final state. -/

def digestBytes (st : H8) : List Nat :=
  wordBytes st.1 ++ wordBytes st.2.1 ++ wordBytes st.2.2.1 ++
  wordBytes st.2.2.2.1 ++ wordBytes st.2.2.2.2.1 ++ wordBytes st.2.2.2.2.2.1 ++
  wordBytes st.2.2.2.2.2.2.1 ++ wordBytes st.2.2.2.2.2.2.2

/-- SHA-256 of a byte list (Python `hashlib.sha256(msg).digest()`). -/

def sha256 (msg : List Nat) : List Nat :=
  digestBytes ((chunks64 (shaPad msg)).foldl shaCompress shaInit)

/-- HMAC-SHA256 (Python `hmac.new(key, msg, hashlib.sha256).digest()`). -/

def hmacSha256 (key msg : List Nat) : List Nat :=
  let key1 := if 64 < key.length then sha256 key else key
  let key2 := key1 ++ List.replicate (64 - key1.length) 0
  let ipad := key2.map (fun b => b ^^^ 0x36)
  let opad := key2.map (fun b => b ^^^ 0x5c)
  sha256 (opad ++ sha256 (ipad ++ msg))

/-! ### `FF Parser/data_obfuscator.py` — deterministic numeric pseudonymization -/

/-- Loop of `_pseudo_digit_stream` (`while len(out) < n`): extend `out`
with the bytes of `HMAC-SHA256(key, seed|i)` reduced mod 10 until `n`
digits are available, then truncate to exactly `n` (`out[:n]`).  Each
pass appends 32 digits, so `n` passes of fuel always suffice
(`streamGo_length` below certifies the fuel is never exhausted). -/

def streamGo (key : List Nat) (seed : String) (n : Nat) :
    Nat → List Nat → Nat → List Nat
  | 0, out, _ => out.take n
  | fuel + 1, out, i =>
    if out.length < n then
      let block := hmacSha256 key (utf8 (seed ++ "|" ++ toString i))
      streamGo key seed n fuel (out ++ block.map (fun b => b % 10)) (i + 1)
    else out.take n

/-- `_pseudo_digit_stream(key, seed, n)`: a deterministic stream of `n`
digits in `[0, 9]` from `HMAC-SHA256(key, seed|i)` for `i = 0, 1, ...`. -/

def pseudo_digit_stream (key : List Nat) (seed : String) (n : Nat) : List Nat :=
  streamGo key seed n n [] 0

/-- The super- and subscript decimal digits: Python `str.isdigit`
accepts them (their Unicode `Numeric_Type` is `Digit`) while
`re.sub(r"\D", ...)` removes them (they are outside the decimal-digit
category `Nd`). -/

def superSubDigits : List Char :=
  ['¹', '²', '³', '⁰', '⁴', '⁵', '⁶', '⁷', '⁸', '⁹',
   '₀', '₁', '₂', '₃', '₄', '₅', '₆', '₇', '₈', '₉']

/-- Python `ch.isdigit()` on this development's character scope (ASCII
plus the super/subscript digits): true on `0`-`9` and on the
super/subscript digits.  It strictly contains the scope's regex-`\d`
class `Char.isDigit` — `'²'.isdigit()` is true although `\D` removes
`'²'` — which is exactly the asymmetry the reinsertion loop of
`deterministic_numeric_like` is exposed to. -/

def isPyDigit (c : Char) : Bool :=
  c.isDigit || decide (c ∈ superSubDigits)

/-- The reinsertion loop at the end of `deterministic_numeric_like`:
walk the original characters, at each `ch.isdigit()` position consume
the next new digit (`new_digits[idx]`), and keep the other characters
unchanged.  `none` models the `IndexError` Python raises when the new
digits run out — which happens when the value holds a character that
`isdigit` accepts but the `\D` digit extraction removed. -/

def reinsert : List Char → List Char → Option (List Char)
  | [], _ => some []
  | ch :: rest, nd =>
    if isPyDigit ch then
      match nd with
      | [] => none
      | d :: nd1 => (reinsert rest nd1).map (fun t => d :: t)
    else
      (reinsert rest nd).map (fun t => ch :: t)

/-- `PSEUDO_KEY = os.getenv("SHIELD_PSEUDO_KEY", "CHANGE-ME-IN-ENV")`:
the key actually used, as a function of the optional environment value. -/

def PSEUDO_KEY (env : Option String) : String :=
  env.getD "CHANGE-ME-IN-ENV"

/-- `deterministic_numeric_like(value, preserve_last, key)` of
`data_obfuscator.py` (the `value is None` early return is outside this
typed model).  The digit extraction `re.sub(r"\D", "", s)` keeps the
decimal-digit category `Nd`, which on this development's character scope
is exactly `Char.isDigit` (`0`-`9`); the reinsertion test `ch.isdigit()`
is the strictly larger `isPyDigit`; `str(d)` for the stream digits
`d < 10` is `Nat.digitChar`. -/

def deterministic_numeric_like (value : String) (preserve_last : Nat)
    (key : String) : Option String :=
  let s := value
  let digits := s.data.filter Char.isDigit
  if digits.isEmpty then some s
  else
    let keep := if 0 < preserve_last && preserve_last < digits.length then
                  digits.drop (digits.length - preserve_last)
                else []
    let repl_len := digits.length - keep.length
    let stream := pseudo_digit_stream (utf8 key) (String.mk digits) repl_len
    let new_digits := stream.map Nat.digitChar ++ keep
    (reinsert s.data new_digits).map String.mk

/-- The number of digit characters of a value (`len(re.sub(r"\D", "", s))`). -/

def digitCount (s : String) : Nat :=
  (s.data.filter Char.isDigit).length

/-! ### `SHIELD/pii_detection.py` — merge and dedupe of candidate spans -/

/-- A candidate entity tuple `(value, label, start, end)` as passed between
producers and `_merge_and_dedupe`. -/

abbrev Cand := String × String × Int × Int

/-- The value component of a candidate. -/

def cVal (c : Cand) : String := c.1

/-- The label component of a candidate. -/

def cLbl (c : Cand) : String := c.2.1

/-- The start offset of a candidate. -/

def cStart (c : Cand) : Int := c.2.2.1

/-- The end offset of a candidate. -/

def cEnd (c : Cand) : Int := c.2.2.2

/-- The width `end - start` of a candidate. -/

def cWidth (c : Cand) : Int := cEnd c - cStart c

/-- `_sanitize_label` of `pii_detection.py`:
`lbl.replace(" ", "_").replace("-", "_").upper()` (ASCII upper-casing;
both replacements are character-for-character). -/

def sanitize_label_pd (lbl : String) : String :=
  String.mk (lbl.data.map (fun c =>
    if c = ' ' then '_' else if c = '-' then '_' else c.toUpper))

/-- `_within(text, s, e)`: `0 <= s < e <= len(text)`. -/

def within (text : String) (s e : Int) : Bool :=
  0 ≤ s && s < e && e ≤ (text.length : Int)

/-- The flatten-and-validate stage of `_merge_and_dedupe`: labels are
sanitized, spans failing `_within` are dropped.  (The `try/except` around
the tuple unpacking and `int()` conversions can only fire on wrong-typed
rows, which the typed candidate shape excludes.) -/

def merge_normalize (text : String) (lists : List (List Cand)) : List Cand :=
  (lists.flatten).filterMap (fun c =>
    let lbl := sanitize_label_pd (cLbl c)
    if within text (cStart c) (cEnd c) then
      some (cVal c, lbl, cStart c, cEnd c)
    else none)

/-- Current span `c` and accepted span `o` have the same label and
intersecting ranges: `l2 == lbl and not (e <= s2 or s >= e2)`. -/

def mergeClash (c o : Cand) : Bool :=
  cLbl o = cLbl c && !(cEnd c ≤ cStart o || cStart c ≥ cEnd o)

/-- The body of the accept loop of `_merge_and_dedupe` for one candidate:
skip exact `(start, end, label)` duplicates; on same-label overlap remove
every strictly narrower accepted span and keep the current one only when
every overlapping accepted span is strictly narrower. -/

def mergeStep (out : List Cand) (c : Cand) : List Cand :=
  if out.any (fun o => cStart c = cStart o && cEnd c = cEnd o && cLbl c = cLbl o) then
    out
  else if out.any (fun o => mergeClash c o) then
    let keep_current := out.all (fun o => !(mergeClash c o) || cWidth o < cWidth c)
    let out1 := out.filter (fun o => !(mergeClash c o && cWidth o < cWidth c))
    if keep_current then out1 ++ [c] else out1
  else out ++ [c]

/-- The sort key of `_merge_and_dedupe` as a total preorder:
`(start ascending, end descending)`. -/

def mergeLe (a b : Cand) : Bool :=
  cStart a < cStart b || (cStart a = cStart b && cEnd b ≤ cEnd a)

/-- `_merge_and_dedupe(text, *lists)` of `pii_detection.py`. -/

def merge_and_dedupe (text : String) (lists : List (List Cand)) : List Cand :=
  (pySortBy mergeLe (merge_normalize text lists)).foldl mergeStep []

/-- The merge done by `detect_entities(text)`: the spaCy (recognizer)
batch is passed to `_merge_and_dedupe` before the regex (pattern) batch. -/

def detect_entities_merge (text : String)
    (spacy_ents regex_ents : List Cand) : List Cand :=
  merge_and_dedupe text [spacy_ents, regex_ents]

/-! ### `SHIELD/feedback_loop.py` — normalization, dedupe, review loop -/

/-- The span dictionary built by `normalize_entity`: keys `start`, `end`
(field `stop` here: `end` is a Lean keyword), `label`, `line_number`,
`left`, `right`, `value`. -/

structure NormSpan where
  start : Int
  stop : Int
  label : String
  line_number : Int
  left : Int
  right : Int
  value : String
deriving Repr, DecidableEq

/-- `sanitize_label` of `feedback_loop.py`: like the detection-side one
but stripping surrounding whitespace first. -/

def sanitize_label_fb (lbl : String) : String :=
  sanitize_label_pd (String.mk (pyStrip lbl.data))

/-- The line walk of `compute_line_position`: at the first line whose
window `[offset, offset + len + 1)` passes `start`, return
`(i + 1, start - offset, end - offset)`. -/

def clpGo (s e : Int) : List (List Char) → Nat → Int → Int × Int × Int
  | [], _, _ => (-1, -1, -1)
  | line :: rest, i, offset =>
    let lineLen : Int := (line.length : Int) + 1
    if offset + lineLen > s then ((i : Int) + 1, s - offset, e - offset)
    else clpGo s e rest (i + 1) (offset + lineLen)

/-- `compute_line_position(text, start, end)` of `feedback_loop.py`:
1-based line number of `start`, and `start`/`end` relative to that line's
first character; `(-1, -1, -1)` when the walk runs out of lines. -/

def compute_line_position (text : String) (s e : Int) : Int × Int × Int :=
  clpGo s e (pySplitlines text.data) 0 0

/-- `normalize_entity(text, ent)` of `feedback_loop.py` for the
`(value, label, start, end)` tuple shape (the shape produced by every
producer in this repository; the other accepted shapes — dicts,
`(value, label, "s-e")`, `(start, end, label)` — differ only in how the
four components are read).  Out-of-bounds or degenerate spans give
`None`. -/

def normalize_entity (text : String) (ent : Cand) : Option NormSpan :=
  let s := cStart ent
  let e := cEnd ent
  let lbl := sanitize_label_fb (cLbl ent)
  if 0 ≤ s && s < e && e ≤ (text.length : Int) then
    let lnr := compute_line_position text s e
    let value := if cVal ent ≠ "" && !(pyStrip (cVal ent).data).isEmpty
                 then cVal ent
                 else String.mk (pySlice text.data s e)
    some ⟨s, e, lbl, lnr.1, lnr.2.1, lnr.2.2, value⟩
  else none

/-- The width of a normalized span. -/

def nsWidth (x : NormSpan) : Int := x.stop - x.start

/-- Review-side clash test, `e` current, `o` accepted:
`not (e["end"] <= o["start"] or e["start"] >= o["end"]) and o["label"] == e["label"]`. -/

def nsClash (e o : NormSpan) : Bool :=
  !(e.stop ≤ o.start || e.start ≥ o.stop) && o.label = e.label

/-- The body of the accept loop of `dedupe_overlaps` for one span: skip
exact `(start, end, label)` duplicates; on same-label overlap remove every
clashing accepted span and append the widest of the current span and the
clashing ones (Python `max`, so the current span wins width ties). -/

def dedupeStep (out : List NormSpan) (e : NormSpan) : List NormSpan :=
  if out.any (fun o => e.start = o.start && e.stop = o.stop && e.label = o.label) then
    out
  else
    let clashes := out.filter (fun o => nsClash e o)
    if clashes.isEmpty then out ++ [e]
    else
      let widest := pyMaxBy nsWidth e clashes
      (out.filter (fun o => !(decide (o ∈ clashes)))) ++ [widest]

/-- The sort key of `dedupe_overlaps` as a total preorder:
`(start ascending, end descending)`. -/

def nsLe (a b : NormSpan) : Bool :=
  a.start < b.start || (a.start = b.start && b.stop ≤ a.stop)

/-- `dedupe_overlaps(ents)` of `feedback_loop.py`. -/

def dedupe_overlaps (ents : List NormSpan) : List NormSpan :=
  (pySortBy nsLe ents).foldl dedupeStep []

/-- One parsed review command, as read by `collect_user_feedback`:
Enter (confirm), `x` (exclude), `l NEWLABEL`, `e START END`, `s` (skip),
or any other input (which matches no branch and drops the span). -/

inductive Cmd where
  | confirm : Cmd
  | exclude : Cmd
  | relabel : String → Cmd
  | edit : Int → Int → Cmd
  | skip : Cmd
  | other : Cmd
deriving Repr, DecidableEq

/-- The interactive loop of `collect_user_feedback`, decoupled from the
console: one command is consumed per presented span (a too-short command
list stands for pressing Enter, i.e. confirm, from there on).  `edit`
with an invalid span and unparseable commands drop the span, `skip` stops
the review. -/

def reviewLoop (text : String) : List NormSpan → List Cmd → List NormSpan
  | [], _ => []
  | e :: es, cmds =>
    let rest := cmds.tail
    match cmds.headD Cmd.confirm with
    | Cmd.confirm => e :: reviewLoop text es rest
    | Cmd.exclude => reviewLoop text es rest
    | Cmd.relabel lbl =>
      { e with label := sanitize_label_fb lbl } :: reviewLoop text es rest
    | Cmd.edit s ed =>
      if 0 ≤ s && s < ed && ed ≤ (text.length : Int) then
        let lnr := compute_line_position text s ed
        { e with start := s, stop := ed,
                 line_number := lnr.1, left := lnr.2.1, right := lnr.2.2,
                 value := String.mk (pySlice text.data s ed) } ::
          reviewLoop text es rest
      else reviewLoop text es rest
    | Cmd.skip => []
    | Cmd.other => reviewLoop text es rest

/-- `collect_user_feedback(text, entities)` of `feedback_loop.py`, with
the console input stream made an explicit command list: normalize and
dedupe the entities, run the review loop, and dedupe the final list
again before returning it. -/

def collect_user_feedback (text : String) (entities : List Cand)
    (cmds : List Cmd) : List NormSpan :=
  let clean := dedupe_overlaps (entities.filterMap (normalize_entity text))
  dedupe_overlaps (reviewLoop text clean cmds)

/-! ### `SHIELD/utils.py` — `extract_spans_from_smart_config` -/

/-- One entry of `config["fields"]`: `label`, `group`, `line`, `left`,
`right`.  (A field with a missing or wrong-typed key is skipped by the
source's `try/except`; the typed record models the well-formed fields
that survive.) -/

structure FieldSpec where
  label : String
  group : Int
  line : Int
  left : Int
  right : Int
deriving Repr, DecidableEq

/-- A SMARTS column-group configuration: `header_skip`, `footer_skip`,
`fields`. -/

structure SmartConfig where
  header_skip : Int
  footer_skip : Int
  fields : List FieldSpec
deriving Repr, DecidableEq

/-- `is_break_line(s)`: blank, or dashes only, once stripped. -/

def is_break_line (s : List Char) : Bool :=
  let t := pyStrip s
  t.isEmpty || t.all (fun ch => ch = '-')

/-- `offsets[i]` of the source: the absolute character offset of line `i`,
a prefix sum of `len(line) + 1` over the earlier lines. -/

def offsetAt (lines : List (List Char)) (i : Nat) : Nat :=
  ((lines.take i).map (fun l => l.length + 1)).sum

/-- The per-field body of the row loop: resolve the field's relative line
against the current row, skip it outside the active window, slice
`[left:right)` clamped to the line, strip, and emit the span with
absolute offsets corrected by the amount of leading whitespace
(`abs_pos(line_idx, left + lead)`).  `none` models every `continue`. -/

def fieldValue (lines : List (List Char)) (win_first win_last base_rel row : Int)
    (f : FieldSpec) : Option Cand :=
  let label := String.mk (pyStrip f.label.data)
  let rel_line := f.line - base_rel
  let line_idx := row + rel_line
  if line_idx < win_first || line_idx ≥ win_last then none
  else
    let src := lines.getD line_idx.toNat []
    if f.left ≥ (src.length : Int) then none
    else
      let r := min (max f.right f.left) (src.length : Int)
      let raw := pySlice src f.left r
      if raw.isEmpty then none
      else
        let lead : Nat := raw.length - (pyLstrip raw).length
        let value := pyStrip raw
        if value.isEmpty then none
        else
          let start_abs : Int := (offsetAt lines line_idx.toNat : Int) + f.left + lead
          let end_abs : Int := start_abs + value.length
          some (String.mk value, label, start_abs, end_abs)

/-- All candidate spans one physical row contributes for a group
(the inner `for f in fields` loop). -/

def rowCands (lines : List (List Char)) (win_first win_last base_rel : Int)
    (fields : List FieldSpec) (row : Int) : List Cand :=
  fields.filterMap (fieldValue lines win_first win_last base_rel row)

/-- The `while row < win_last` loop of one group: a producing row emits
its spans and marks the block started; a non-producing row is skipped
while the block has not started (whether or not it `is_break_line` — both
branches of the source advance the row) and ends the block afterwards.
Every pass advances `row` by one, so the fuel `(win_last - row).toNat` of
the initial call runs out exactly when `row` reaches `win_last`. -/

def groupGo (lines : List (List Char)) (win_first win_last base_rel : Int)
    (fields : List FieldSpec) : Nat → Int → Bool → List Cand
  | 0, _, _ => []
  | fuel + 1, row, started =>
    if row < win_last then
      let es := rowCands lines win_first win_last base_rel fields row
      if es.isEmpty then
        if started then []
        else groupGo lines win_first win_last base_rel fields fuel (row + 1) started
      else es ++ groupGo lines win_first win_last base_rel fields fuel (row + 1) true
    else []

/-- `extract_spans_from_smart_config(text, config)` of `SHIELD/utils.py`.
Groups are visited in ascending group id (Python `sorted(groups.items())`
over a dict whose insertion order is first occurrence); each starts at the
minimum relative `line` of its fields, is skipped when that anchor row
falls outside the active window, and otherwise runs the row loop. -/

def extract_spans_from_smart_config (text : String) (config : SmartConfig) :
    List Cand :=
  let lines := pySplitlines text.data
  let n := lines.length
  let win_first : Int := max 0 config.header_skip
  let win_last : Int := (n : Int) - max 0 config.footer_skip
  let gids := pySortBy (fun a b => decide (a ≤ b))
    ((config.fields.map (fun f => f.group)).eraseDups)
  gids.flatMap (fun g =>
    let fields := config.fields.filter (fun f => f.group = g)
    match fields with
    | [] => []
    | f0 :: fs =>
      let base_rel := (fs.map (fun f => f.line)).foldl min f0.line
      let row := win_first + base_rel
      if row < win_first || row ≥ win_last then []
      else groupGo lines win_first win_last base_rel fields
             (win_last - row).toNat row false)

/-! ### Lemmas about the pseudonymization subsystem -/

/-- The `keep` list of `deterministic_numeric_like`: the last
`preserve_last` digits when `0 < preserve_last < digit_count`, else
empty. -/

def dnlKeep (v : String) (n : Nat) : List Char :=
  if 0 < n && n < (v.data.filter Char.isDigit).length then
    (v.data.filter Char.isDigit).drop ((v.data.filter Char.isDigit).length - n)
  else []

/-! ### Claim theorems — pseudonymization -/

/-! ### Lemmas about the reconciliation engine -/

/-- Two candidates do not conflict: they are not the same
`(start, end, label)` triple, and when they share a label their
half-open ranges do not intersect. -/

def CandOk (a b : Cand) : Prop :=
  ¬(cStart a = cStart b ∧ cEnd a = cEnd b ∧ cLbl a = cLbl b) ∧
  (cLbl a = cLbl b → cEnd a ≤ cStart b ∨ cStart a ≥ cEnd b)

/-! ### Lemmas about the review-side dedupe -/

/-- Two normalized spans do not conflict: not the same
`(start, end, label)` triple, and no same-label range intersection. -/

def SpanOk (a b : NormSpan) : Prop :=
  ¬(a.start = b.start ∧ a.stop = b.stop ∧ a.label = b.label) ∧
  (a.label = b.label → a.stop ≤ b.start ∨ a.start ≥ b.stop)

/-! ### Claim theorems — reconciliation and review -/

/-! ### Equal-width tie-break behavior (claim C7) -/

/-! ### Lemmas about the fixed-width extractor on non-producing input -/

/-! ### Lemmas about Python stripping -/

/-! ### Lemmas about line splitting and absolute offsets -/

/-- The newline-joined form of a line list (inverse of `splitSegs`). -/

def joinNl : List (List Char) → List Char
  | [] => []
  | [l] => l
  | l :: ls => l ++ '\n' :: joinNl ls

/-- The characters (other than `'\n'`) on which Python `splitlines`
breaks but the `'\n'`-only model does not: texts free of these are
exactly the simple newline-joined documents the claims speak about. -/

def pyExtraBreak (c : Char) : Bool :=
  c = '\r' || c = '\x0b' || c = '\x0c' || c = '\x1c' || c = '\x1d' ||
  c = '\x1e' || c = '\x85' || c = '\u2028' || c = '\u2029'

/-! ### Lemmas and claim theorems -/

theorem digestBytes_length (st : H8) : (digestBytes st).length = 32 := by
  obtain ⟨a, b, c, d, e, f, g, h⟩ := st
  rfl

theorem sha256_length (msg : List Nat) : (sha256 msg).length = 32 :=
  digestBytes_length _

theorem hmacSha256_length (key msg : List Nat) :
    (hmacSha256 key msg).length = 32 :=
  sha256_length _

/-- The stream loop returns exactly `n` digits whenever the fuel covers
the request (32 new digits per pass). -/

theorem streamGo_length (key : List Nat) (seed : String) (n : Nat) :
    ∀ (fuel : Nat) (out : List Nat) (i : Nat), n ≤ 32 * fuel + out.length →
      (streamGo key seed n fuel out i).length = n := by
  intro fuel
  induction fuel with
  | zero =>
    intro out i h
    simp only [streamGo, List.length_take]
    omega
  | succ k ih =>
    intro out i h
    by_cases hl : out.length < n
    · simp only [streamGo, hl, if_true]
      apply ih
      simp [hmacSha256_length]
      omega
    · simp only [streamGo, hl, if_false, List.length_take]
      omega

/-- `_pseudo_digit_stream` returns exactly the requested number of digits. -/

theorem pseudo_digit_stream_length (key : List Nat) (seed : String) (n : Nat) :
    (pseudo_digit_stream key seed n).length = n := by
  apply streamGo_length
  omega

/-- The stream loop only ever appends bytes reduced mod 10. -/

theorem streamGo_lt10 (key : List Nat) (seed : String) (n : Nat) :
    ∀ (fuel : Nat) (out : List Nat) (i : Nat), (∀ x ∈ out, x < 10) →
      ∀ x ∈ streamGo key seed n fuel out i, x < 10 := by
  intro fuel
  induction fuel with
  | zero =>
    intro out i hout x hx
    exact hout x (List.mem_of_mem_take hx)
  | succ k ih =>
    intro out i hout x hx
    by_cases hl : out.length < n
    · simp only [streamGo, hl, if_true] at hx
      refine ih _ _ ?_ x hx
      intro y hy
      rcases List.mem_append.mp hy with h | h
      · exact hout y h
      · obtain ⟨b, _, rfl⟩ := List.mem_map.mp h
        exact Nat.mod_lt _ (by omega)
    · simp only [streamGo, hl, if_false] at hx
      exact hout x (List.mem_of_mem_take hx)

/-- Every digit produced by `_pseudo_digit_stream` is in `[0, 9]`. -/

theorem pseudo_digit_stream_lt10 (key : List Nat) (seed : String) (n : Nat) :
    ∀ x ∈ pseudo_digit_stream key seed n, x < 10 :=
  streamGo_lt10 key seed n n [] 0 (by intro x hx; cases hx)

/-- `Nat.digitChar` of a stream digit is a digit character (this is
`str(d)` for `0 ≤ d ≤ 9`). -/

theorem digitChar_isDigit (d : Nat) (h : d < 10) :
    (Nat.digitChar d).isDigit = true := by
  interval_cases d <;> decide

/-- `str.isdigit` contains the extraction's digit class `\d`. -/

theorem isDigit_isPyDigit (c : Char) (h : c.isDigit = true) :
    isPyDigit c = true := by
  unfold isPyDigit
  rw [h]
  rfl

/-- A character rejected by `str.isdigit` is no extraction digit either. -/

theorem not_pyDigit_not_digit (c : Char) (h : isPyDigit c = false) :
    c.isDigit = false := by
  cases hd : c.isDigit
  · rfl
  · rw [isDigit_isPyDigit c hd] at h
    cases h

/-- The super/subscript digits are not ASCII. -/

theorem superSub_not_ascii (c : Char) (hmem : c ∈ superSubDigits) :
    128 ≤ c.toNat := by
  fin_cases hmem <;> decide

/-- On ASCII characters `str.isdigit` and the regex digit class `\d`
coincide: both are exactly `0`-`9` there. -/

theorem isPyDigit_ascii (c : Char) (h : c.toNat < 128) :
    isPyDigit c = c.isDigit := by
  unfold isPyDigit
  rw [decide_eq_false (fun hmem => absurd (superSub_not_ascii c hmem) (by omega))]
  exact Bool.or_false _

/-- Soundness of the reinsertion loop: whenever it succeeds and the
supplied new digits are digit characters, the output has the input's
length, positions `str.isdigit` rejects are unchanged, positions it
accepts hold a digit, and the output's digit subsequence is the consumed
prefix of the new digits. -/

theorem reinsert_sound :
    ∀ (cs nd out : List Char),
      reinsert cs nd = some out →
      (∀ d ∈ nd, d.isDigit = true) →
      out.length = cs.length ∧
      (∀ i : Nat,
        (isPyDigit (cs.getD i ' ') = false → out.getD i ' ' = cs.getD i ' ') ∧
        (isPyDigit (cs.getD i ' ') = true → (out.getD i ' ').isDigit = true)) ∧
      out.filter Char.isDigit = nd.take (cs.filter isPyDigit).length := by
  intro cs
  induction cs with
  | nil =>
    intro nd out hout hnd
    have h0 : some ([] : List Char) = some out := hout
    obtain rfl : ([] : List Char) = out := Option.some.inj h0
    refine ⟨rfl, ?_, by simp⟩
    intro i
    constructor
    · intro _; rfl
    · intro h
      rw [show ([] : List Char).getD i ' ' = ' ' from rfl] at h
      exact absurd h (by decide)
  | cons c rest ih =>
    intro nd out hout hnd
    by_cases hc : isPyDigit c
    · cases nd with
      | nil =>
        rw [show reinsert (c :: rest) [] = none by simp [reinsert, hc]] at hout
        cases hout
      | cons d nd1 =>
        have h1 : (reinsert rest nd1).map (fun t => d :: t) = some out := by
          rw [← hout]; simp [reinsert, hc]
        obtain ⟨t, ht, hdt⟩ := Option.map_eq_some'.mp h1
        have hout2 : out = d :: t := hdt.symm
        subst hout2
        obtain ⟨hlen, hprop, hfil⟩ := ih nd1 t ht (fun x hx => hnd x (by simp [hx]))
        refine ⟨by simp [hlen], ?_, ?_⟩
        · intro i
          cases i with
          | zero =>
            constructor
            · intro h0
              rw [List.getD_cons_zero] at h0
              simp [hc] at h0
            · intro _
              rw [List.getD_cons_zero]
              exact hnd d (by simp)
          | succ j =>
            simpa [List.getD_cons_succ] using hprop j
        · have hd : d.isDigit = true := hnd d (by simp)
          simp [List.filter_cons, hc, hd, hfil, List.take_succ_cons]
    · have hcf : isPyDigit c = false := Bool.eq_false_iff.mpr hc
      have h1 : (reinsert rest nd).map (fun t => c :: t) = some out := by
        rw [← hout]; simp [reinsert, hc]
      obtain ⟨t, ht, hct⟩ := Option.map_eq_some'.mp h1
      have hout2 : out = c :: t := hct.symm
      subst hout2
      obtain ⟨hlen, hprop, hfil⟩ := ih nd t ht hnd
      refine ⟨by simp [hlen], ?_, ?_⟩
      · intro i
        cases i with
        | zero =>
          constructor
          · intro _; simp
          · intro h0
            rw [List.getD_cons_zero] at h0
            exact absurd h0 hc
        | succ j =>
          simpa [List.getD_cons_succ] using hprop j
      · have hcd : c.isDigit = false := not_pyDigit_not_digit c hcf
        simp [List.filter_cons, hcd, hcf, hfil]

/-- Totality of the reinsertion loop when enough new digits are supplied
for the `str.isdigit` positions of the value. -/

theorem reinsert_total :
    ∀ (cs nd : List Char),
      (cs.filter isPyDigit).length ≤ nd.length →
      ∃ out : List Char, reinsert cs nd = some out := by
  intro cs
  induction cs with
  | nil =>
    intro nd _
    exact ⟨[], rfl⟩
  | cons c rest ih =>
    intro nd hlen
    by_cases hc : isPyDigit c
    · cases nd with
      | nil => simp [List.filter_cons, hc] at hlen
      | cons d nd1 =>
        obtain ⟨t, ht⟩ := ih nd1 (by simp [List.filter_cons, hc] at hlen; omega)
        exact ⟨d :: t, by simp [reinsert, hc, ht]⟩
    · obtain ⟨t, ht⟩ := ih nd (by simpa [List.filter_cons, hc] using hlen)
      exact ⟨c :: t, by simp [reinsert, hc, ht]⟩

/-- A value with no digit characters has no digit at any position. -/

theorem no_digit_getD (l : List Char) (h : l.filter Char.isDigit = [])
    (i : Nat) : (l.getD i ' ').isDigit = false := by
  by_cases hi : i < l.length
  · have hm : l.getD i ' ' ∈ l := by
      rw [List.getD_eq_getElem _ _ hi]
      exact List.getElem_mem hi
    have := List.filter_eq_nil_iff.mp h _ hm
    simpa using this
  · rw [List.getD_eq_default _ _ (by omega)]
    decide

/-- Core soundness of `deterministic_numeric_like` on a value with at
least one digit: whenever the call succeeds, the output has the input's
length, `str.isdigit`-rejected positions are unchanged, accepted
positions hold digit characters, and the output's digit subsequence is
exactly the stream digits followed by the kept tail. -/

theorem dnl_sound (v key : String) (n : Nat) (out : String)
    (hne : (v.data.filter Char.isDigit).isEmpty = false)
    (hout : deterministic_numeric_like v n key = some out) :
    out.data.length = v.data.length ∧
    (∀ i : Nat,
      (isPyDigit (v.data.getD i ' ') = false →
        out.data.getD i ' ' = v.data.getD i ' ') ∧
      (isPyDigit (v.data.getD i ' ') = true →
        (out.data.getD i ' ').isDigit = true)) ∧
    out.data.filter Char.isDigit =
      (pseudo_digit_stream (utf8 key) (String.mk (v.data.filter Char.isDigit))
          ((v.data.filter Char.isDigit).length - (dnlKeep v n).length)).map
        Nat.digitChar ++ dnlKeep v n := by
  have hkLe : (dnlKeep v n).length ≤ (v.data.filter Char.isDigit).length := by
    unfold dnlKeep
    split
    · rw [List.length_drop]
      omega
    · simp
  set nd := (pseudo_digit_stream (utf8 key) (String.mk (v.data.filter Char.isDigit))
      ((v.data.filter Char.isDigit).length - (dnlKeep v n).length)).map Nat.digitChar
    ++ dnlKeep v n with hnd_def
  have hndlen : nd.length = (v.data.filter Char.isDigit).length := by
    rw [hnd_def]
    simp [pseudo_digit_stream_length]
    omega
  have hnddig : ∀ d ∈ nd, d.isDigit = true := by
    intro d hd
    rw [hnd_def] at hd
    rcases List.mem_append.mp hd with h | h
    · obtain ⟨x, hx, rfl⟩ := List.mem_map.mp h
      exact digitChar_isDigit x (pseudo_digit_stream_lt10 _ _ _ x hx)
    · unfold dnlKeep at h
      split at h
      · exact (List.mem_filter.mp (List.mem_of_mem_drop h)).2
      · cases h
  have hd_eq : deterministic_numeric_like v n key
      = (reinsert v.data nd).map String.mk := by
    show (if (v.data.filter Char.isDigit).isEmpty then some v
      else (reinsert v.data
        ((pseudo_digit_stream (utf8 key) (String.mk (v.data.filter Char.isDigit))
            ((v.data.filter Char.isDigit).length - (dnlKeep v n).length)).map
          Nat.digitChar ++ dnlKeep v n)).map String.mk)
      = (reinsert v.data nd).map String.mk
    rw [if_neg (by simp [hne]), ← hnd_def]
  rw [hd_eq] at hout
  obtain ⟨o, ho, hoo⟩ := Option.map_eq_some'.mp hout
  have houtd : out.data = o := by rw [← hoo]
  obtain ⟨hlen, hprop, hfil⟩ := reinsert_sound v.data nd o ho hnddig
  rw [houtd]
  refine ⟨hlen, hprop, ?_⟩
  rw [hfil]
  have hmono : (v.data.filter Char.isDigit).length ≤
      (v.data.filter isPyDigit).length :=
    (List.monotone_filter_right _ (fun c => isDigit_isPyDigit c)).length_le
  rw [List.take_of_length_le (by omega)]

/-- `deterministic_numeric_like` succeeds on every value whose
`str.isdigit` characters are all regex digits — the two digit classes
disagreeing on some character of the value is the only source of
failure. -/

theorem dnl_total (v key : String) (n : Nat)
    (hpd : ∀ c ∈ v.data, isPyDigit c = c.isDigit) :
    (deterministic_numeric_like v n key).isSome = true := by
  by_cases hne : (v.data.filter Char.isDigit).isEmpty
  · unfold deterministic_numeric_like
    rw [if_pos hne]
    rfl
  · set nd := (pseudo_digit_stream (utf8 key) (String.mk (v.data.filter Char.isDigit))
        ((v.data.filter Char.isDigit).length - (dnlKeep v n).length)).map Nat.digitChar
      ++ dnlKeep v n with hnd_def
    have hkLe : (dnlKeep v n).length ≤ (v.data.filter Char.isDigit).length := by
      unfold dnlKeep
      split
      · rw [List.length_drop]
        omega
      · simp
    have hndlen : nd.length = (v.data.filter Char.isDigit).length := by
      rw [hnd_def]
      simp [pseudo_digit_stream_length]
      omega
    have hd_eq : deterministic_numeric_like v n key
        = (reinsert v.data nd).map String.mk := by
      show (if (v.data.filter Char.isDigit).isEmpty then some v
        else (reinsert v.data
          ((pseudo_digit_stream (utf8 key) (String.mk (v.data.filter Char.isDigit))
              ((v.data.filter Char.isDigit).length - (dnlKeep v n).length)).map
            Nat.digitChar ++ dnlKeep v n)).map String.mk)
        = (reinsert v.data nd).map String.mk
      rw [if_neg (by simp [hne]), ← hnd_def]
    obtain ⟨o, ho⟩ := reinsert_total v.data nd
      (by rw [List.filter_congr hpd, hndlen])
    rw [hd_eq, ho]
    rfl

/-- C1: absence of the pseudonymization key is NOT treated as a hard
configuration error by the code: `os.getenv` falls back to the built-in
default key `"CHANGE-ME-IN-ENV"`, and `deterministic_numeric_like`
happily pseudonymizes with it (here `"123"` becomes `"757"`) instead of
refusing.  This evaluates the code at the failing configuration (no
`SHIELD_PSEUDO_KEY` in the environment) for the `code_bug` verdict. -/

theorem missing_key_uses_builtin_default :
    PSEUDO_KEY none = "CHANGE-ME-IN-ENV" ∧
    deterministic_numeric_like "123" 0 (PSEUDO_KEY none) = some "757" ∧
    ("757" : String) ≠ "123" := by
  refine ⟨rfl, by decide, by decide⟩

/-- C2: the claimed length/format invariance FAILS in the code.  The
digits are extracted with `re.sub(r"\D", ...)` (the decimal-digit class)
but reinserted at `ch.isdigit()` positions (a strictly larger class), so
a value like `"1²"` extracts one digit yet visits two digit positions
during reinsertion, and `new_digits[idx]` overruns — an `IndexError`
(`none` here): no output of any length exists for that input, with any
`preserve_last` and any key, the built-in default included.  The
invariance is the code's own documented intent (format-exact digit
substitution over arbitrary field values), so this is a code bug rather
than a spec overclaim; `pseudonymize_ascii_invariance` shows the
property does hold whenever the two digit classes agree on the value,
e.g. on every all-ASCII value. -/

theorem pseudonymize_unicode_digit_crash :
    isPyDigit '²' = true ∧ ('²' : Char).isDigit = false ∧
    deterministic_numeric_like "1²" 0 "k" = none ∧
    deterministic_numeric_like "1²" 4 (PSEUDO_KEY none) = none := by
  refine ⟨by decide, by decide, by decide, by decide⟩

/-- On values where `str.isdigit` and the regex digit class agree on
every character — in particular on every ASCII value — the intended
invariance does hold: the call succeeds, the output has the input's
length, non-digit characters keep their index, and digit positions hold
digits. -/

theorem pseudonymize_ascii_invariance (v key : String) (n : Nat)
    (hascii : ∀ c ∈ v.data, c.toNat < 128) :
    (deterministic_numeric_like v n key).isSome = true ∧
    ∀ out : String, deterministic_numeric_like v n key = some out →
      out.data.length = v.data.length ∧
      (∀ i : Nat, (v.data.getD i ' ').isDigit = false →
        out.data.getD i ' ' = v.data.getD i ' ') ∧
      (∀ i : Nat, (v.data.getD i ' ').isDigit = true →
        (out.data.getD i ' ').isDigit = true) := by
  have hpd : ∀ c ∈ v.data, isPyDigit c = c.isDigit :=
    fun c hc => isPyDigit_ascii c (hascii c hc)
  refine ⟨dnl_total v key n hpd, ?_⟩
  intro out hout
  by_cases hne : (v.data.filter Char.isDigit).isEmpty
  · have hv : deterministic_numeric_like v n key = some v := by
      unfold deterministic_numeric_like
      rw [if_pos hne]
    rw [hv] at hout
    obtain rfl : v = out := Option.some.inj hout
    exact ⟨rfl, fun i _ => rfl, fun i h => h⟩
  · obtain ⟨hlen, hprop, _⟩ :=
      dnl_sound v key n out (Bool.eq_false_iff.mpr hne) hout
    have hgd : ∀ i : Nat,
        isPyDigit (v.data.getD i ' ') = (v.data.getD i ' ').isDigit := by
      intro i
      by_cases hi : i < v.data.length
      · have hm : v.data.getD i ' ' ∈ v.data := by
          rw [List.getD_eq_getElem _ _ hi]
          exact List.getElem_mem hi
        exact hpd _ hm
      · rw [List.getD_eq_default _ _ (by omega)]
        decide
    refine ⟨hlen, ?_, ?_⟩
    · intro i h
      exact (hprop i).1 (by rw [hgd i, h])
    · intro i h
      exact (hprop i).2 (by rw [hgd i, h])

/-- C4 counterexample: `"12"` has 2 digits and `preserve_last = 2 ≥ 2`,
yet the output is `"94"`, not the unchanged input — with
`preserve_last ≥ digit_count` the source keeps nothing and replaces every
digit. -/

theorem preserve_ge_digit_count_counterexample :
    digitCount "12" = 2 ∧
    deterministic_numeric_like "12" 2 "k" = some "94" ∧
    ("94" : String) ≠ "12" := by
  refine ⟨by decide, by decide, by decide⟩

/-- C4 amended: when `preserve_last` is at least the digit count, the
`keep` tail is empty, so the value is FULLY pseudonymized — the call
behaves exactly like `preserve_last = 0` (full replacement), not like an
identity. -/

theorem preserve_ge_digit_count_full_replacement (v key : String) (n : Nat)
    (h : digitCount v ≤ n) :
    deterministic_numeric_like v n key = deterministic_numeric_like v 0 key := by
  unfold digitCount at h
  have hc : (0 < n && n < (v.data.filter Char.isDigit).length) = false := by
    rw [Bool.and_eq_false_iff]
    right
    rw [decide_eq_false_iff_not]
    omega
  have ha : dnlKeep v n = [] := by
    simp only [dnlKeep, hc, Bool.false_eq_true, if_false]
  have hb : dnlKeep v 0 = [] := by
    simp [dnlKeep]
  show (if (v.data.filter Char.isDigit).isEmpty then some v
      else (reinsert v.data
        ((pseudo_digit_stream (utf8 key) (String.mk (v.data.filter Char.isDigit))
            ((v.data.filter Char.isDigit).length - (dnlKeep v n).length)).map
          Nat.digitChar ++ dnlKeep v n)).map String.mk) =
    (if (v.data.filter Char.isDigit).isEmpty then some v
      else (reinsert v.data
        ((pseudo_digit_stream (utf8 key) (String.mk (v.data.filter Char.isDigit))
            ((v.data.filter Char.isDigit).length - (dnlKeep v 0).length)).map
          Nat.digitChar ++ dnlKeep v 0)).map String.mk)
  rw [ha, hb]

/-- C4 amended, witness: `preserve_last = 5 ≥ digitCount "12" = 2`, and
the call coincides with the full-replacement call. -/

theorem preserve_ge_digit_count_full_replacement_witness :
    deterministic_numeric_like "12" 5 "k" = deterministic_numeric_like "12" 0 "k" :=
  preserve_ge_digit_count_full_replacement "12" "k" 5 (by decide)

/-- C5: with `0 < preserve_last < digit_count`, the last `preserve_last`
digit positions of the output hold the original digits verbatim, in
order (the digit subsequences of output and input agree from position
`digit_count - preserve_last` on). -/

theorem pseudonymize_tail_preservation (v key : String) (n : Nat)
    (h1 : 0 < n) (h2 : n < digitCount v) (out : String)
    (hout : deterministic_numeric_like v n key = some out) :
    (out.data.filter Char.isDigit).drop (digitCount v - n) =
      (v.data.filter Char.isDigit).drop (digitCount v - n) := by
  unfold digitCount at h2 ⊢
  have hne : (v.data.filter Char.isDigit).isEmpty = false := by
    rw [List.isEmpty_eq_false]
    intro hnil
    rw [hnil] at h2
    simp at h2
  obtain ⟨_, _, hfil⟩ := dnl_sound v key n out hne hout
  rw [hfil]
  have hkeep : dnlKeep v n = (v.data.filter Char.isDigit).drop
      ((v.data.filter Char.isDigit).length - n) := by
    unfold dnlKeep
    rw [if_pos]
    rw [Bool.and_eq_true, decide_eq_true_eq, decide_eq_true_eq]
    exact ⟨h1, h2⟩
  have hklen : (dnlKeep v n).length = n := by
    rw [hkeep, List.length_drop]
    omega
  set M := (pseudo_digit_stream (utf8 key)
      (String.mk (v.data.filter Char.isDigit))
      ((v.data.filter Char.isDigit).length - (dnlKeep v n).length)).map
        Nat.digitChar with hM
  have hslen : M.length = (v.data.filter Char.isDigit).length - n := by
    rw [hM, List.length_map, pseudo_digit_stream_length, hklen]
  calc (M ++ dnlKeep v n).drop ((v.data.filter Char.isDigit).length - n)
      = (M ++ dnlKeep v n).drop M.length := by rw [hslen]
    _ = dnlKeep v n := List.drop_left M (dnlKeep v n)
    _ = (v.data.filter Char.isDigit).drop
          ((v.data.filter Char.isDigit).length - n) := hkeep

/-- C5 witness: `pseudonymize("563-73-6000", 4, "k") = "376-65-6000"`,
whose digit tail from position `9 - 4` on is the original `"6000"`. -/

theorem pseudonymize_tail_preservation_witness :
    (("376-65-6000" : String).data.filter Char.isDigit).drop
        (digitCount "563-73-6000" - 4) =
      (("563-73-6000" : String).data.filter Char.isDigit).drop
        (digitCount "563-73-6000" - 4) :=
  pseudonymize_tail_preservation "563-73-6000" "k" 4 (by decide) (by decide)
    "376-65-6000" (by decide)

theorem candOk_symm : Symmetric CandOk := by
  intro a b h
  obtain ⟨h1, h2⟩ := h
  constructor
  · intro ⟨e1, e2, e3⟩
    exact h1 ⟨e1.symm, e2.symm, e3.symm⟩
  · intro hl
    rcases h2 hl.symm with h | h
    · right
      omega
    · left
      omega

/-- Reading off the failed duplicate test of `mergeStep`. -/

theorem merge_no_dup {out : List Cand} {c : Cand}
    (hdup : ¬out.any (fun o =>
      cStart c = cStart o && cEnd c = cEnd o && cLbl c = cLbl o) = true) :
    ∀ o ∈ out, ¬(cStart o = cStart c ∧ cEnd o = cEnd c ∧ cLbl o = cLbl c) := by
  intro o ho hco
  apply hdup
  rw [List.any_eq_true]
  refine ⟨o, ho, ?_⟩
  simp only [Bool.and_eq_true, decide_eq_true_eq]
  exact ⟨⟨hco.1.symm, hco.2.1.symm⟩, hco.2.2.symm⟩

/-- `mergeClash` read back as a proposition. -/

theorem mergeClash_eq_true {c o : Cand} :
    mergeClash c o = true ↔
      cLbl o = cLbl c ∧ ¬(cEnd c ≤ cStart o ∨ cStart c ≥ cEnd o) := by
  unfold mergeClash
  simp

/-- The accept-loop body of `_merge_and_dedupe` preserves the
no-duplicate / no-same-label-overlap invariant of the accepted list. -/

theorem mergeStep_inv (out : List Cand) (c : Cand)
    (h : out.Pairwise CandOk) : (mergeStep out c).Pairwise CandOk := by
  unfold mergeStep
  by_cases hdup : out.any (fun o =>
      cStart c = cStart o && cEnd c = cEnd o && cLbl c = cLbl o) = true
  · rw [if_pos hdup]
    exact h
  · rw [if_neg hdup]
    have hnodup := merge_no_dup hdup
    by_cases hov : out.any (fun o => mergeClash c o) = true
    · rw [if_pos hov]
      by_cases hkc : out.all (fun o => !mergeClash c o || cWidth o < cWidth c) = true
      · rw [if_pos hkc]
        rw [List.pairwise_append]
        refine ⟨h.sublist (List.filter_sublist out), List.pairwise_singleton _ _, ?_⟩
        intro o ho b hb
        rw [List.mem_singleton] at hb
        rw [hb]
        rw [List.mem_filter] at ho
        obtain ⟨hoMem, hoKeep⟩ := ho
        constructor
        · exact hnodup o hoMem
        · intro hl
          by_contra hint
          have hclash : mergeClash c o = true := by
            rw [mergeClash_eq_true]
            exact ⟨hl, by omega⟩
          have hwin := List.all_eq_true.mp hkc o hoMem
          rw [hclash] at hwin
          simp only [Bool.not_true, Bool.false_or, decide_eq_true_eq] at hwin
          rw [Bool.not_eq_true'] at hoKeep
          simp only [Bool.and_eq_false_iff, hclash] at hoKeep
          rcases hoKeep with h0 | h0
          · cases h0
          · rw [decide_eq_false_iff_not] at h0
            exact h0 hwin
      · rw [if_neg hkc]
        exact h.sublist (List.filter_sublist out)
    · rw [if_neg hov]
      rw [List.pairwise_append]
      refine ⟨h, List.pairwise_singleton _ _, ?_⟩
      intro o ho b hb
      rw [List.mem_singleton] at hb
      rw [hb]
      constructor
      · exact hnodup o ho
      · intro hl
        by_contra hint
        apply hov
        rw [List.any_eq_true]
        refine ⟨o, ho, ?_⟩
        rw [mergeClash_eq_true]
        exact ⟨hl, by omega⟩

/-- The accept loop preserves the invariant from any start. -/

theorem merge_foldl_inv (l : List Cand) :
    ∀ acc : List Cand, acc.Pairwise CandOk →
      (l.foldl mergeStep acc).Pairwise CandOk := by
  induction l with
  | nil => intro acc h; exact h
  | cons c rest ih =>
    intro acc h
    exact ih _ (mergeStep_inv acc c h)

/-- `_merge_and_dedupe` always returns a list with no duplicate
`(start, end, label)` triple and no same-label intersection. -/

theorem merge_and_dedupe_inv (text : String) (lists : List (List Cand)) :
    (merge_and_dedupe text lists).Pairwise CandOk := by
  unfold merge_and_dedupe
  exact merge_foldl_inv _ [] List.Pairwise.nil

theorem spanOk_symm : Symmetric SpanOk := by
  intro a b h
  obtain ⟨h1, h2⟩ := h
  constructor
  · intro ⟨e1, e2, e3⟩
    exact h1 ⟨e1.symm, e2.symm, e3.symm⟩
  · intro hl
    rcases h2 hl.symm with h | h
    · right
      omega
    · left
      omega

/-- `nsClash` read back as a proposition. -/

theorem nsClash_eq_true {e o : NormSpan} :
    nsClash e o = true ↔
      ¬(e.stop ≤ o.start ∨ e.start ≥ o.stop) ∧ o.label = e.label := by
  unfold nsClash
  simp

/-- Python `max` picks an element of its argument list. -/

theorem pyMaxBy_mem {α : Type} (key : α → Int) :
    ∀ (xs : List α) (x : α), pyMaxBy key x xs ∈ x :: xs := by
  intro xs
  induction xs with
  | nil => intro x; exact List.mem_singleton.mpr rfl
  | cons y ys ih =>
    intro x
    unfold pyMaxBy at ih ⊢
    rw [List.foldl_cons]
    by_cases hgt : key y > key x
    · rw [if_pos hgt]
      have := ih y
      rcases List.mem_cons.mp this with h | h
      · rw [h]; simp
      · simp [h]
    · rw [if_neg hgt]
      have := ih x
      rcases List.mem_cons.mp this with h | h
      · rw [h]; simp
      · simp [h]

/-- The accept-loop body of `dedupe_overlaps` preserves the
no-duplicate / no-same-label-overlap invariant of the accepted list. -/

theorem dedupeStep_inv (out : List NormSpan) (e : NormSpan)
    (h : out.Pairwise SpanOk) : (dedupeStep out e).Pairwise SpanOk := by
  unfold dedupeStep
  by_cases hdup : out.any (fun o =>
      e.start = o.start && e.stop = o.stop && e.label = o.label) = true
  · rw [if_pos hdup]
    exact h
  · rw [if_neg hdup]
    have hnodup : ∀ o ∈ out, ¬(o.start = e.start ∧ o.stop = e.stop ∧ o.label = e.label) := by
      intro o ho hco
      apply hdup
      rw [List.any_eq_true]
      refine ⟨o, ho, ?_⟩
      simp only [Bool.and_eq_true, decide_eq_true_eq]
      exact ⟨⟨hco.1.symm, hco.2.1.symm⟩, hco.2.2.symm⟩
    by_cases hcl : (out.filter (fun o => nsClash e o)).isEmpty = true
    · rw [if_pos hcl]
      rw [List.pairwise_append]
      refine ⟨h, List.pairwise_singleton _ _, ?_⟩
      intro o ho b hb
      rw [List.mem_singleton] at hb
      rw [hb]
      have hnc : nsClash e o = false := by
        rw [List.isEmpty_iff] at hcl
        by_contra hx
        rw [Bool.not_eq_false] at hx
        have : o ∈ out.filter (fun o => nsClash e o) := List.mem_filter.mpr ⟨ho, hx⟩
        rw [hcl] at this
        cases this
      constructor
      · exact hnodup o ho
      · intro hl
        rw [Bool.eq_false_iff] at hnc
        by_contra hint
        apply hnc
        rw [nsClash_eq_true]
        exact ⟨by omega, hl⟩
    · rw [if_neg hcl]
      rw [List.pairwise_append]
      refine ⟨h.sublist (List.filter_sublist out), List.pairwise_singleton _ _, ?_⟩
      intro o ho w hw
      rw [List.mem_singleton] at hw
      rw [hw]
      rw [List.mem_filter] at ho
      obtain ⟨hoMem, hoNot⟩ := ho
      rw [Bool.not_eq_eq_eq_not, Bool.not_true, decide_eq_false_iff_not] at hoNot
      have hwmem := pyMaxBy_mem nsWidth (out.filter (fun o => nsClash e o)) e
      rcases List.mem_cons.mp hwmem with hwe | hwc
    -- widest is the current span `e`
      · rw [hwe]
        have hnc : ¬(nsClash e o = true) := by
          intro hx
          exact hoNot (List.mem_filter.mpr ⟨hoMem, hx⟩)
        constructor
        · exact hnodup o hoMem
        · intro hl
          by_contra hint
          apply hnc
          rw [nsClash_eq_true]
          exact ⟨by omega, hl⟩
    -- widest is one of the clashing accepted spans
      · have hcMem : pyMaxBy nsWidth e (out.filter (fun o => nsClash e o)) ∈ out :=
          List.mem_of_mem_filter hwc
        have hne : o ≠ pyMaxBy nsWidth e (out.filter (fun o => nsClash e o)) := by
          intro hx
          rw [hx] at hoNot
          exact hoNot hwc
        exact h.forall spanOk_symm hoMem hcMem hne

/-- The accept loop of `dedupe_overlaps` preserves the invariant. -/

theorem dedupe_foldl_inv (l : List NormSpan) :
    ∀ acc : List NormSpan, acc.Pairwise SpanOk →
      (l.foldl dedupeStep acc).Pairwise SpanOk := by
  induction l with
  | nil => intro acc h; exact h
  | cons e rest ih =>
    intro acc h
    exact ih _ (dedupeStep_inv acc e h)

/-- `dedupe_overlaps` always returns a list with no duplicate
`(start, end, label)` triple and no same-label intersection. -/

theorem dedupe_overlaps_inv (ents : List NormSpan) :
    (dedupe_overlaps ents).Pairwise SpanOk := by
  unfold dedupe_overlaps
  exact dedupe_foldl_inv _ [] List.Pairwise.nil

/-- C3: the reconciled set contains no two members with identical
`(start, end, label)` and no two same-label members with intersecting
ranges (at most one of any same-label overlapping pair survives); and on
the spec's concrete cases, `(0,4,PERSON)` against `(0,9,PERSON)` keeps
only the widest `(0,9,PERSON)`, while the cross-label pair
`(0,9,PERSON)`/`(3,6,DATE)` is retained whole. -/

theorem reconcile_no_same_label_overlap :
    (∀ (text : String) (lists : List (List Cand)),
      (merge_and_dedupe text lists).Pairwise CandOk) ∧
    merge_and_dedupe "0123456789"
        [[("0123", "PERSON", 0, 4), ("012345678", "PERSON", 0, 9)]] =
      [("012345678", "PERSON", 0, 9)] ∧
    merge_and_dedupe "0123456789"
        [[("012345678", "PERSON", 0, 9), ("345", "DATE", 3, 6)]] =
      [("012345678", "PERSON", 0, 9), ("345", "DATE", 3, 6)] :=
  ⟨merge_and_dedupe_inv, by decide, by decide⟩

/-- C10: whatever the initial entities and the review commands (confirm,
exclude, relabel, edit, skip or unparseable input), the span list
returned by the review loop satisfies the no-duplicate /
no-same-label-overlap invariant again — `dedupe_overlaps` is re-applied
to the final list before it is returned. -/

theorem review_output_no_same_label_overlap :
    ∀ (text : String) (entities : List Cand) (cmds : List Cmd),
      (collect_user_feedback text entities cmds).Pairwise SpanOk := by
  intro text entities cmds
  unfold collect_user_feedback
  exact dedupe_overlaps_inv _

/-- In `_merge_and_dedupe`, an equal-width same-label intersecting pair is
resolved in favor of the earliest start: the existing accepted span (the
one sorted first, i.e. with the smaller start) wins because the source
keeps the accepted span whenever it is `>=` as wide. -/

theorem merge_equal_width_earliest_start_wins (text : String)
    (v1 v2 lbl : String) (s1 e1 s2 e2 : Int)
    (hw1 : within text s1 e1 = true) (hw2 : within text s2 e2 = true)
    (hlt : s1 < s2) (heq : e1 - s1 = e2 - s2) (hint : s2 < e1) :
    merge_and_dedupe text [[(v1, lbl, s1, e1), (v2, lbl, s2, e2)]] =
      [(v1, sanitize_label_pd lbl, s1, e1)] := by
  have hb1 : 0 ≤ s1 ∧ s1 < e1 ∧ e1 ≤ (text.length : Int) := by
    unfold within at hw1
    simp only [Bool.and_eq_true, decide_eq_true_eq] at hw1
    exact ⟨hw1.1.1, hw1.1.2, hw1.2⟩
  have hb2 : 0 ≤ s2 ∧ s2 < e2 ∧ e2 ≤ (text.length : Int) := by
    unfold within at hw2
    simp only [Bool.and_eq_true, decide_eq_true_eq] at hw2
    exact ⟨hw2.1.1, hw2.1.2, hw2.2⟩
  have hnorm : merge_normalize text [[(v1, lbl, s1, e1), (v2, lbl, s2, e2)]] =
      [(v1, sanitize_label_pd lbl, s1, e1), (v2, sanitize_label_pd lbl, s2, e2)] := by
    unfold merge_normalize
    simp [cVal, cLbl, cStart, cEnd, hw1, hw2]
  have hsort : pySortBy mergeLe
      [(v1, sanitize_label_pd lbl, s1, e1), (v2, sanitize_label_pd lbl, s2, e2)] =
      [(v1, sanitize_label_pd lbl, s1, e1), (v2, sanitize_label_pd lbl, s2, e2)] := by
    have hle : mergeLe ((v1, sanitize_label_pd lbl, s1, e1) : Cand)
        (v2, sanitize_label_pd lbl, s2, e2) = true := by
      unfold mergeLe
      simp [cStart, cEnd, hlt]
    simp [pySortBy, insertLe, hle]
  have hstep1 : mergeStep [] (v1, sanitize_label_pd lbl, s1, e1) =
      [(v1, sanitize_label_pd lbl, s1, e1)] := rfl
  have hstep2 : mergeStep [(v1, sanitize_label_pd lbl, s1, e1)]
      ((v2, sanitize_label_pd lbl, s2, e2) : Cand) =
      [(v1, sanitize_label_pd lbl, s1, e1)] := by
    unfold mergeStep mergeClash
    simp only [List.any_cons, List.any_nil, List.all_cons, List.all_nil,
      List.filter_cons, List.filter_nil, cVal, cLbl, cStart, cEnd, cWidth]
    have hA : ¬(s2 = s1) := by omega
    have hB : ¬(e2 ≤ s1) := by omega
    have hC : ¬(s2 ≥ e1) := by omega
    have hD : ¬(e1 - s1 < e2 - s2) := by omega
    simp [hA, hB, hC, hD]
  unfold merge_and_dedupe
  rw [hnorm, hsort]
  rw [List.foldl_cons, List.foldl_cons, List.foldl_nil, hstep1, hstep2]

/-- In `dedupe_overlaps`, the SAME situation is resolved the other way:
Python `max` over `[current] + clashes` returns the current span on width
ties, so the latest start wins and the earliest-start span is removed. -/

theorem dedupe_equal_width_latest_start_wins (d1 d2 : NormSpan)
    (hl : d1.label = d2.label) (hlt : d1.start < d2.start)
    (heq : d1.stop - d1.start = d2.stop - d2.start)
    (hint : d2.start < d1.stop)
    (hv1 : d1.start < d1.stop) (hv2 : d2.start < d2.stop) :
    dedupe_overlaps [d1, d2] = [d2] := by
  have hsort : pySortBy nsLe [d1, d2] = [d1, d2] := by
    have hle : nsLe d1 d2 = true := by
      unfold nsLe
      simp [hlt]
    simp [pySortBy, insertLe, hle]
  have hstep1 : dedupeStep [] d1 = [d1] := rfl
  have hstep2 : dedupeStep [d1] d2 = [d2] := by
    unfold dedupeStep nsClash nsWidth pyMaxBy
    simp only [List.any_cons, List.any_nil, List.filter_cons, List.filter_nil,
      List.foldl_cons, List.foldl_nil]
    have hA : ¬(d2.start = d1.start) := by omega
    have hB : ¬(d2.stop ≤ d1.start) := by omega
    have hC : ¬(d2.start ≥ d1.stop) := by omega
    have hD : ¬(d1.stop - d1.start > d2.stop - d2.start) := by omega
    simp [hA, hB, hC, hD, hl.symm]
  unfold dedupe_overlaps
  rw [hsort]
  rw [List.foldl_cons, List.foldl_cons, List.foldl_nil, hstep1, hstep2]

/-- C7 counterexample: the claim's tie-break description fails on the
code.  In the review path `dedupe_overlaps`, of the equal-width
intersecting same-label spans `(0,4,X)` and `(2,6,X)` the LATEST start
survives, not the earliest; and in the producer path, at equal width and
equal start the batch passed first by `detect_entities` — the recognizer
batch, not the pattern batch — wins the exact-duplicate test (candidates
carry no source field at all). -/

theorem tiebreak_counterexample :
    dedupe_overlaps [⟨0, 4, "X", 1, 0, 4, "abcd"⟩, ⟨2, 6, "X", 1, 2, 6, "cdef"⟩] =
      [⟨2, 6, "X", 1, 2, 6, "cdef"⟩] ∧
    detect_entities_merge "0123456789" [("recog", "X", 0, 4)] [("patt", "X", 0, 4)] =
      [("recog", "X", 0, 4)] :=
  ⟨by decide, by decide⟩

/-- C7 amended: equal-width intersecting same-label ties go to the
EARLIEST start in `_merge_and_dedupe` but to the LATEST start in
`dedupe_overlaps`; equal-width equal-start same-label candidates are
exact duplicates, resolved in favor of the batch processed first — in
`detect_entities` the recognizer batch precedes the pattern batch, and no
`FixedWidth > Pattern > Recognizer` source priority exists anywhere
(candidates carry no source component). -/

theorem tiebreak_amended :
    (∀ (text : String) (v1 v2 lbl : String) (s1 e1 s2 e2 : Int),
      within text s1 e1 = true → within text s2 e2 = true →
      s1 < s2 → e1 - s1 = e2 - s2 → s2 < e1 →
      merge_and_dedupe text [[(v1, lbl, s1, e1), (v2, lbl, s2, e2)]] =
        [(v1, sanitize_label_pd lbl, s1, e1)]) ∧
    (∀ d1 d2 : NormSpan,
      d1.label = d2.label → d1.start < d2.start →
      d1.stop - d1.start = d2.stop - d2.start → d2.start < d1.stop →
      d1.start < d1.stop → d2.start < d2.stop →
      dedupe_overlaps [d1, d2] = [d2]) ∧
    detect_entities_merge "0123456789" [("recog", "X", 0, 4)] [("patt", "X", 0, 4)] =
      [("recog", "X", 0, 4)] :=
  ⟨fun text v1 v2 lbl s1 e1 s2 e2 hw1 hw2 hlt heq hint =>
      merge_equal_width_earliest_start_wins text v1 v2 lbl s1 e1 s2 e2 hw1 hw2 hlt heq hint,
    fun d1 d2 hl hlt heq hint hv1 hv2 =>
      dedupe_equal_width_latest_start_wins d1 d2 hl hlt heq hint hv1 hv2,
    by decide⟩

/-- C8 counterexample: the malformed raw span `(5,3,"X")` (start > end)
is silently dropped without affecting the other batch, but NO rejection
counter is returned: the reconciliation result for the input with the
malformed span is literally identical to the result without it, so no
caller can read a rejection count off the return value (the function
returns only the deduped list). -/

theorem rejection_counter_counterexample :
    merge_and_dedupe "0123456789" [[("0123", "NAME", 0, 4)], [("v", "X", 5, 3)]] =
      merge_and_dedupe "0123456789" [[("0123", "NAME", 0, 4)]] := by
  decide

/-- C8 amended: `_merge_and_dedupe` never raises and silently drops a
malformed candidate (one failing `_within`) from any position of any
batch without affecting the other spans — but it returns only the list,
with no rejection count alongside. -/

theorem malformed_span_dropped_silently (text : String)
    (pre post : List (List Cand)) (b1 b2 : List Cand) (bad : Cand)
    (hbad : within text (cStart bad) (cEnd bad) = false) :
    merge_and_dedupe text (pre ++ (b1 ++ bad :: b2) :: post) =
      merge_and_dedupe text (pre ++ (b1 ++ b2) :: post) := by
  unfold merge_and_dedupe merge_normalize
  simp [List.flatten_append, List.filterMap_append, hbad]

/-- C8 amended, witness: concrete instance with the malformed `(5,3,"X")`
inserted after a valid span in the same batch. -/

theorem malformed_span_dropped_silently_witness :
    merge_and_dedupe "0123456789" [[("0123", "NAME", 0, 4), ("v", "X", 5, 3)]] =
      merge_and_dedupe "0123456789" [[("0123", "NAME", 0, 4)]] :=
  malformed_span_dropped_silently "0123456789" [] [] [("0123", "NAME", 0, 4)] []
    ("v", "X", 5, 3) (by decide)

/-- C9 counterexample: with a blank anchor row, the group does NOT
terminate with zero spans — the extractor skips leading non-producing
rows, and the later row `"JOHN DOE"` still matches and is emitted. -/

theorem blank_anchor_counterexample :
    extract_spans_from_smart_config "\nJOHN DOE" ⟨0, 0, [⟨"NAME", 1, 0, 0, 8⟩]⟩ =
      [("JOHN DOE", "NAME", 1, 9)] := by
  decide

/-- Indexing a list of empty lines gives the empty line. -/

theorem getD_nil_of_all_nil (lines : List (List Char))
    (h : ∀ l ∈ lines, l = []) (i : Nat) : lines.getD i [] = [] := by
  by_cases hi : i < lines.length
  · rw [List.getD_eq_getElem _ _ hi]
    exact h _ (List.getElem_mem hi)
  · exact List.getD_eq_default _ _ (by omega)

/-- A field contributes nothing on any row when every line is empty. -/

theorem fieldValue_all_nil (lines : List (List Char))
    (h : ∀ l ∈ lines, l = []) (wf wl br row : Int) (f : FieldSpec) :
    fieldValue lines wf wl br row f = none := by
  simp only [fieldValue, getD_nil_of_all_nil lines h]
  split
  · rfl
  · split
    · rfl
    · simp [pySlice, pySliceIx]

/-- No row produces any candidate when every line is empty. -/

theorem rowCands_all_nil (lines : List (List Char))
    (h : ∀ l ∈ lines, l = []) (wf wl br : Int) (fields : List FieldSpec)
    (row : Int) : rowCands lines wf wl br fields row = [] := by
  unfold rowCands
  rw [List.filterMap_eq_nil_iff]
  intro f _
  exact fieldValue_all_nil lines h wf wl br row f

/-- The row loop of a group that never produces a value terminates (the
fuel is bounded by the window) with zero spans. -/

theorem groupGo_all_nil (lines : List (List Char))
    (wf wl br : Int) (fields : List FieldSpec)
    (h : ∀ row : Int, rowCands lines wf wl br fields row = []) :
    ∀ (fuel : Nat) (row : Int) (started : Bool),
      groupGo lines wf wl br fields fuel row started = [] := by
  intro fuel
  induction fuel with
  | zero => intro row started; rfl
  | succ k ih =>
    intro row started
    unfold groupGo
    by_cases hrow : row < wl
    · rw [if_pos hrow, h row]
      simp only [List.isEmpty_nil, if_true]
      cases started
      · simp only [Bool.false_eq_true, if_false]
        exact ih (row + 1) false
      · simp
    · rw [if_neg hrow]

/-- C9 amended: a group none of whose rows in the active window produces
a field value terminates with zero spans and no error, for EVERY
document, window and field set (first conjunct; the all-blank document
of the third conjunct and the blank-anchor-then-textual-header document
of the fourth, whose field columns lie beyond every line, are
instances); and once production has started, a single non-producing row
ends the block (second conjunct).  A blank anchor row alone does NOT
silence the group: leading non-producing rows are skipped, and a later
matching row still emits its span (the counterexample above). -/

theorem group_termination_amended :
    (∀ (lines : List (List Char)) (wf wl br : Int) (fields : List FieldSpec),
      (∀ r : Int, wf ≤ r → r < wl → rowCands lines wf wl br fields r = []) →
      ∀ (fuel : Nat) (row : Int) (started : Bool), wf ≤ row →
        groupGo lines wf wl br fields fuel row started = []) ∧
    (∀ (lines : List (List Char)) (wf wl br : Int) (fields : List FieldSpec)
       (fuel : Nat) (row : Int),
      rowCands lines wf wl br fields row = [] →
      groupGo lines wf wl br fields (fuel + 1) row true = []) ∧
    (∀ (text : String) (cfg : SmartConfig),
      (∀ l ∈ pySplitlines text.data, l = []) →
      extract_spans_from_smart_config text cfg = []) ∧
    extract_spans_from_smart_config "\nACCOUNT STATEMENT"
      ⟨0, 0, [⟨"NAME", 1, 0, 30, 40⟩]⟩ = [] := by
  refine ⟨?_, ?_, ?_, ?_⟩
  · intro lines wf wl br fields h fuel
    induction fuel with
    | zero =>
      intro row started _
      rfl
    | succ k ih =>
      intro row started hrow
      unfold groupGo
      by_cases hlt : row < wl
      · rw [if_pos hlt, h row hrow hlt]
        simp only [List.isEmpty_nil, if_true]
        cases started
        · simp only [Bool.false_eq_true, if_false]
          exact ih (row + 1) false (by omega)
        · simp
      · rw [if_neg hlt]
  · intro lines wf wl br fields fuel row h
    unfold groupGo
    by_cases hlt : row < wl
    · rw [if_pos hlt, h]
      simp
    · rw [if_neg hlt]
  · intro text cfg h
    simp only [extract_spans_from_smart_config]
    rw [List.flatMap_eq_nil_iff]
    intro g _
    cases hf : cfg.fields.filter (fun f => f.group = g) with
    | nil => rfl
    | cons f0 fs =>
      have hnil : ∀ {α : Type} {c : Prop} [Decidable c] {x : List α},
          x = [] → (if c then ([] : List α) else x) = [] := by
        intro α c inst x hx
        split
        · rfl
        · exact hx
      exact hnil (groupGo_all_nil _ _ _ _ _
        (rowCands_all_nil _ h _ _ _ _) _ _ _)
  · decide

/-- `dropWhile` is a `drop` of the `takeWhile` length. -/

theorem dropWhile_eq_drop_len {α : Type} (p : α → Bool) :
    ∀ l : List α, l.dropWhile p = l.drop (l.takeWhile p).length := by
  intro l
  induction l with
  | nil => rfl
  | cons a t ih =>
    by_cases h : p a
    · simp [List.dropWhile_cons, List.takeWhile_cons, h, ih]
    · simp [List.dropWhile_cons, List.takeWhile_cons, h]

/-- `lstrip` drops exactly the leading-whitespace count used by the
extractor's `lead` correction. -/

theorem pyLstrip_eq_drop (raw : List Char) :
    pyLstrip raw = raw.drop (raw.length - (pyLstrip raw).length) := by
  unfold pyLstrip
  have hlen : (raw.takeWhile pyIsSpace).length + (raw.dropWhile pyIsSpace).length
      = raw.length := by
    rw [← List.length_append, List.takeWhile_append_dropWhile]
  rw [dropWhile_eq_drop_len, List.length_drop]
  congr 1
  omega

/-- `rstrip` is a prefix (`take`) of its argument. -/

theorem pyRstrip_eq_take (w : List Char) :
    pyRstrip w = w.take (w.length - (w.reverse.takeWhile pyIsSpace).length) := by
  unfold pyRstrip
  rw [dropWhile_eq_drop_len, List.drop_reverse, List.reverse_reverse]

/-- A `take` can always be re-expressed with its own length. -/

theorem take_eq_take_own_length {α : Type} (w : List α) (m : Nat) :
    w.take m = w.take (w.take m).length := by
  rw [List.length_take]
  rcases Nat.le_total m w.length with h | h
  · rw [Nat.min_eq_left h]
  · rw [Nat.min_eq_right h, List.take_of_length_le h, List.take_length]

/-- The head of a `dropWhile` result fails the predicate. -/

theorem dropWhile_head_false {α : Type} (p : α → Bool) :
    ∀ (l : List α) (c : α) (t : List α), l.dropWhile p = c :: t → p c = false := by
  intro l
  induction l with
  | nil => intro c t h; cases h
  | cons a l1 ih =>
    intro c t h
    rw [List.dropWhile_cons] at h
    by_cases ha : p a
    · rw [if_pos ha] at h
      exact ih c t h
    · rw [if_neg ha] at h
      cases h
      rw [Bool.eq_false_iff]
      exact ha

/-- `dropWhile` is idempotent. -/

theorem dropWhile_idem {α : Type} (p : α → Bool) (l : List α) :
    (l.dropWhile p).dropWhile p = l.dropWhile p := by
  cases hd : l.dropWhile p with
  | nil => rfl
  | cons c t =>
    rw [List.dropWhile_cons, if_neg]
    rw [dropWhile_head_false p l c t hd]
    intro hx
    cases hx

/-- `rstrip` is idempotent. -/

theorem pyRstrip_idem (w : List Char) : pyRstrip (pyRstrip w) = pyRstrip w := by
  unfold pyRstrip
  rw [List.reverse_reverse, dropWhile_idem]

/-- `lstrip` after `rstrip` after `lstrip` changes nothing: the head (if
any) of `pyRstrip (pyLstrip l)` is the head of `pyLstrip l`, which fails
the whitespace test. -/

theorem pyLstrip_pyRstrip_pyLstrip (l : List Char) :
    pyLstrip (pyRstrip (pyLstrip l)) = pyRstrip (pyLstrip l) := by
  cases hw : pyRstrip (pyLstrip l) with
  | nil => rfl
  | cons c t =>
    have hpre := pyRstrip_eq_take (pyLstrip l)
    rw [hw] at hpre
    have hfail : pyIsSpace c = false := by
      cases hl : pyLstrip l with
      | nil =>
        rw [hl] at hpre
        simp at hpre
      | cons c1 t1 =>
        rw [hl] at hpre
        cases hk : ((c1 :: t1).length -
            ((c1 :: t1).reverse.takeWhile pyIsSpace).length) with
        | zero =>
          rw [hk] at hpre
          cases hpre
        | succ k =>
          rw [hk, List.take_succ_cons] at hpre
          injection hpre with h1 h2
          rw [h1]
          exact dropWhile_head_false pyIsSpace l c1 t1 hl
    unfold pyLstrip
    rw [List.dropWhile_cons, if_neg]
    rw [hfail]
    intro hx
    cases hx

/-- `strip` is idempotent: an emitted (stripped) value has no leading or
trailing whitespace left. -/

theorem pyStrip_idem (l : List Char) : pyStrip (pyStrip l) = pyStrip l := by
  unfold pyStrip
  rw [pyLstrip_pyRstrip_pyLstrip, pyRstrip_idem]

/-- `splitSegs` never returns an empty list of segments. -/

theorem splitSegs_ne_nil : ∀ l : List Char, splitSegs l ≠ [] := by
  intro l
  cases l with
  | nil => intro h; cases h
  | cons c cs =>
    unfold splitSegs
    by_cases hc : c = '\n'
    · rw [if_pos hc]
      intro h
      cases h
    · rw [if_neg hc]
      cases splitSegs cs with
      | nil => intro h; cases h
      | cons s ss => intro h; cases h

/-- Joining the segments of `splitSegs` reconstructs the text exactly. -/

theorem joinNl_splitSegs : ∀ l : List Char, joinNl (splitSegs l) = l := by
  intro l
  induction l with
  | nil => rfl
  | cons c cs ih =>
    unfold splitSegs
    by_cases hc : c = '\n'
    · rw [if_pos hc]
      cases hs : splitSegs cs with
      | nil => exact absurd hs (splitSegs_ne_nil cs)
      | cons s ss =>
        show joinNl ([] :: s :: ss) = c :: cs
        show ([] : List Char) ++ '\n' :: joinNl (s :: ss) = c :: cs
        rw [hs] at ih
        rw [List.nil_append, ih, hc]
    · rw [if_neg hc]
      cases hs : splitSegs cs with
      | nil => exact absurd hs (splitSegs_ne_nil cs)
      | cons s ss =>
        rw [hs] at ih
        cases ss with
        | nil =>
          show (c :: s : List Char) = c :: cs
          rw [show joinNl [s] = s from rfl] at ih
          rw [ih]
        | cons s2 ss2 =>
          show (c :: s : List Char) ++ '\n' :: joinNl (s2 :: ss2) = c :: cs
          rw [List.cons_append]
          rw [show (s : List Char) ++ '\n' :: joinNl (s2 :: ss2)
              = joinNl (s :: s2 :: ss2) from rfl]
          rw [ih]

/-- `offsetAt` of line `i + 1`. -/

theorem offsetAt_cons_succ (p : List Char) (ps : List (List Char)) (j : Nat) :
    offsetAt (p :: ps) (j + 1) = (p.length + 1) + offsetAt ps j := by
  unfold offsetAt
  rw [List.take_succ_cons, List.map_cons, List.sum_cons]

/-- Within one line of the joined text, a slice at the line's absolute
offset is the corresponding slice of the line itself. -/

theorem joinNl_slice : ∀ (parts : List (List Char)) (i c k : Nat),
    i < parts.length → c + k ≤ (parts.getD i []).length →
    ((joinNl parts).drop (offsetAt parts i + c)).take k =
      ((parts.getD i []).drop c).take k := by
  intro parts
  induction parts with
  | nil =>
    intro i c k hi _
    simp at hi
  | cons p ps ih =>
    intro i c k hi hck
    cases i with
    | zero =>
      rw [List.getD_cons_zero] at hck ⊢
      have hoff : offsetAt (p :: ps) 0 = 0 := rfl
      rw [hoff, Nat.zero_add]
      cases ps with
      | nil => rfl
      | cons q qs =>
        show ((p ++ '\n' :: joinNl (q :: qs)).drop c).take k = (p.drop c).take k
        rw [List.drop_append_of_le_length (by omega)]
        rw [List.take_append_of_le_length (by rw [List.length_drop]; omega)]
    | succ j =>
      rw [List.getD_cons_succ] at hck ⊢
      rw [List.length_cons] at hi
      have hj : j < ps.length := by omega
      cases ps with
      | nil => simp at hj
      | cons q qs =>
        show ((p ++ '\n' :: joinNl (q :: qs)).drop
            (offsetAt (p :: q :: qs) (j + 1) + c)).take k
          = (((q :: qs).getD j []).drop c).take k
        rw [offsetAt_cons_succ]
        have harr : p.length + 1 + offsetAt (q :: qs) j + c
            = p.length + ((offsetAt (q :: qs) j + c) + 1) := by omega
        rw [harr]
        rw [show (p ++ '\n' :: joinNl (q :: qs) : List Char)
            = p ++ ('\n' :: joinNl (q :: qs)) from rfl]
        rw [List.drop_append, List.drop_succ_cons]
        exact ih j c k hj hck

/-- The absolute offset of a position inside line `i` stays inside the
joined text. -/

theorem offsetAt_add_le : ∀ (parts : List (List Char)) (i : Nat),
    i < parts.length →
    offsetAt parts i + (parts.getD i []).length ≤ (joinNl parts).length := by
  intro parts
  induction parts with
  | nil =>
    intro i hi
    simp at hi
  | cons p ps ih =>
    intro i hi
    cases i with
    | zero =>
      rw [List.getD_cons_zero]
      have hoff : offsetAt (p :: ps) 0 = 0 := rfl
      rw [hoff, Nat.zero_add]
      cases ps with
      | nil => exact Nat.le_refl _
      | cons q qs =>
        show p.length ≤ (p ++ '\n' :: joinNl (q :: qs)).length
        rw [List.length_append]
        omega
    | succ j =>
      rw [List.getD_cons_succ, List.length_cons] at *
      have hj : j < ps.length := by omega
      cases ps with
      | nil => simp at hj
      | cons q qs =>
        have := ih j hj
        show offsetAt (p :: q :: qs) (j + 1) + ((q :: qs).getD j []).length
          ≤ (p ++ '\n' :: joinNl (q :: qs)).length
        rw [offsetAt_cons_succ, List.length_append, List.length_cons]
        omega

/-- `pySplitlines` is `splitSegs`, possibly without a trailing empty
segment. -/

theorem pySplitlines_spec (l : List Char) :
    pySplitlines l = splitSegs l ∨ pySplitlines l = (splitSegs l).dropLast := by
  cases l with
  | nil => right; rfl
  | cons c cs =>
    unfold pySplitlines
    by_cases h : (splitSegs (c :: cs)).getLast? = some []
    · right
      rw [if_pos h]
    · left
      rw [if_neg h]

/-- `getD` commutes with `dropLast` inside bounds. -/

theorem getD_dropLast (l : List (List Char)) (i : Nat)
    (hi : i < l.dropLast.length) : l.dropLast.getD i [] = l.getD i [] := by
  have hi2 : i < l.length := by
    rw [List.length_dropLast] at hi
    omega
  rw [List.getD_eq_getElem _ _ hi, List.getD_eq_getElem _ _ hi2]
  exact List.getElem_dropLast l i hi

/-- `offsetAt` ignores a dropped last line when reading earlier lines. -/

theorem offsetAt_dropLast (l : List (List Char)) (i : Nat)
    (hi : i ≤ l.length - 1) : offsetAt l.dropLast i = offsetAt l i := by
  unfold offsetAt
  rw [List.dropLast_eq_take, List.take_take, Nat.min_eq_left hi]

/-- Within one line of a text, a slice at the line's absolute offset (as
computed by the extractor's prefix sums over `pySplitlines`) is the
corresponding slice of the line itself. -/

theorem pySplitlines_slice (text : List Char) (i c k : Nat)
    (hi : i < (pySplitlines text).length)
    (hck : c + k ≤ ((pySplitlines text).getD i []).length) :
    (text.drop (offsetAt (pySplitlines text) i + c)).take k =
      (((pySplitlines text).getD i []).drop c).take k := by
  rcases pySplitlines_spec text with hs | hs
  · rw [hs] at hi hck ⊢
    set off := offsetAt (splitSegs text) i + c with hoff
    conv_lhs => rw [← joinNl_splitSegs text]
    exact joinNl_slice _ i c k hi hck
  · rw [hs] at hi hck ⊢
    have hi2 : i < (splitSegs text).length := by
      rw [List.length_dropLast] at hi
      omega
    have hile : i ≤ (splitSegs text).length - 1 := by
      rw [List.length_dropLast] at hi
      omega
    rw [getD_dropLast _ _ hi] at hck ⊢
    rw [offsetAt_dropLast _ _ hile]
    set off := offsetAt (splitSegs text) i + c with hoff
    conv_lhs => rw [← joinNl_splitSegs text]
    exact joinNl_slice _ i c k hi2 hck

/-- Offsets computed against `pySplitlines` stay within the text. -/

theorem pySplitlines_offset_le (text : List Char) (i : Nat)
    (hi : i < (pySplitlines text).length) :
    offsetAt (pySplitlines text) i + ((pySplitlines text).getD i []).length
      ≤ text.length := by
  rcases pySplitlines_spec text with hs | hs
  · rw [hs] at hi ⊢
    conv_rhs => rw [← joinNl_splitSegs text]
    exact offsetAt_add_le _ i hi
  · rw [hs] at hi ⊢
    have hi2 : i < (splitSegs text).length := by
      rw [List.length_dropLast] at hi
      omega
    have hile : i ≤ (splitSegs text).length - 1 := by
      rw [List.length_dropLast] at hi
      omega
    rw [getD_dropLast _ _ hi, offsetAt_dropLast _ _ hile]
    conv_rhs => rw [← joinNl_splitSegs text]
    exact offsetAt_add_le _ i hi2

/-- Python slicing with nonnegative in-range endpoints is plain
`drop`/`take`. -/

theorem pySlice_nonneg {α : Type} (l : List α) (a b : Int)
    (ha : 0 ≤ a) (hb : 0 ≤ b)
    (hale : a.toNat ≤ l.length) (hble : b.toNat ≤ l.length) :
    pySlice l a b = (l.drop a.toNat).take (b.toNat - a.toNat) := by
  simp only [pySlice, pySliceIx]
  rw [if_neg (by omega), if_neg (by omega),
    Nat.min_eq_left hale, Nat.min_eq_left hble]

/-- Soundness of one field extraction: under nonnegative `left` and a
window inside the line list, an emitted span has a nonempty fully
stripped value, a nonnegative start, `end = start + len(value)`, and
Python `text[start:end]` reproduces the value exactly. -/

theorem fieldValue_sound (text : String) (wf wl br row : Int) (f : FieldSpec)
    (hleft : 0 ≤ f.left) (hwf : 0 ≤ wf)
    (hwl : wl ≤ ((pySplitlines text.data).length : Int)) (ent : Cand)
    (hent : fieldValue (pySplitlines text.data) wf wl br row f = some ent) :
    ent.1.data ≠ [] ∧
    pyStrip ent.1.data = ent.1.data ∧
    0 ≤ cStart ent ∧
    cEnd ent = cStart ent + (ent.1.length : Int) ∧
    pySlice text.data (cStart ent) (cEnd ent) = ent.1.data := by
  simp only [fieldValue] at hent
  set parts := pySplitlines text.data with hparts
  set li := row + (f.line - br) with hli
  set src := parts.getD li.toNat [] with hsrc
  set r := (f.right ⊔ f.left) ⊓ (src.length : Int) with hr
  set raw := pySlice src f.left r with hraw
  set value := pyStrip raw with hvalue
  set lead := raw.length - (pyLstrip raw).length with hlead
  split at hent
  · exact Option.noConfusion hent
  rename_i hwin
  split at hent
  · exact Option.noConfusion hent
  rename_i hsrclen
  split at hent
  · exact Option.noConfusion hent
  rename_i hrawne
  split at hent
  · exact Option.noConfusion hent
  rename_i hvalne
  have hE := Option.some.inj hent
  subst hE
  simp only [Bool.or_eq_true, decide_eq_true_eq, not_or, not_lt, not_le] at hwin
  obtain ⟨hwfle, hlwl⟩ := hwin
  rw [not_le] at hsrclen
  have hvne : value ≠ [] := by
    intro hx
    rw [List.isEmpty_iff] at hvalne
    exact hvalne hx
  have hli0 : 0 ≤ li := le_trans hwf hwfle
  have hlin : li.toNat < parts.length := by
    have : li < (parts.length : Int) := lt_of_lt_of_le hlwl hwl
    omega
  have hlr : f.left ≤ r := by
    rw [hr]
    exact le_min (le_max_right _ _) (le_of_lt hsrclen)
  have hrlen : r ≤ (src.length : Int) := min_le_right _ _
  have hr0 : 0 ≤ r := le_trans hleft hlr
  have hraweq : raw = (src.drop f.left.toNat).take (r.toNat - f.left.toNat) := by
    rw [hraw]
    exact pySlice_nonneg src f.left r hleft hr0 (by omega) (by omega)
  have hrawlen : raw.length = r.toNat - f.left.toNat := by
    rw [hraweq, List.length_take, List.length_drop]
    omega
  have hw1 : pyLstrip raw = raw.drop lead := pyLstrip_eq_drop raw
  have hwlen : (pyLstrip raw).length = raw.length - lead := by
    rw [hw1, List.length_drop]
  have hleadle : lead ≤ raw.length := by
    rw [hlead]
    omega
  have hv2a : value = (pyLstrip raw).take
      ((pyLstrip raw).length -
        ((pyLstrip raw).reverse.takeWhile pyIsSpace).length) := by
    rw [hvalue]
    unfold pyStrip
    exact pyRstrip_eq_take (pyLstrip raw)
  have hv2 : value = (pyLstrip raw).take value.length := by
    have h1 := take_eq_take_own_length (pyLstrip raw)
      ((pyLstrip raw).length -
        ((pyLstrip raw).reverse.takeWhile pyIsSpace).length)
    rw [← hv2a] at h1
    exact h1
  have hvlen : value.length ≤ raw.length - lead := by
    conv_lhs => rw [hv2]
    rw [List.length_take]
    omega
  have hv3 : value = (src.drop (f.left.toNat + lead)).take value.length := by
    conv_lhs => rw [hv2, hw1, hraweq]
    rw [List.drop_take, List.drop_drop, List.take_take]
    rw [Nat.min_eq_left (by rw [hrawlen] at hvlen hleadle; omega)]
  have hinside : (f.left.toNat + lead) + value.length ≤ src.length := by
    rw [hrawlen] at hvlen hleadle
    omega
  have hslice := pySplitlines_slice text.data li.toNat
    (f.left.toNat + lead) value.length hlin (by rw [← hparts, ← hsrc]; exact hinside)
  rw [← hparts, ← hsrc] at hslice
  have hbound := pySplitlines_offset_le text.data li.toNat hlin
  rw [← hparts, ← hsrc] at hbound
  refine ⟨hvne, ?_, ?_, ?_, ?_⟩
  · exact pyStrip_idem raw
  · show (0 : Int) ≤ (offsetAt parts li.toNat : Int) + f.left + lead
    omega
  · show (offsetAt parts li.toNat : Int) + f.left + lead + value.length
      = (offsetAt parts li.toNat : Int) + f.left + lead + (value.length : Int)
    rfl
  · show pySlice text.data
      ((offsetAt parts li.toNat : Int) + f.left + lead)
      ((offsetAt parts li.toNat : Int) + f.left + lead + value.length)
      = value
    have hendle : offsetAt parts li.toNat + f.left.toNat + lead + value.length
        ≤ text.data.length := by
      omega
    rw [pySlice_nonneg text.data _ _ (by omega) (by omega) (by omega) (by omega)]
    have hstartNat : ((offsetAt parts li.toNat : Int) + f.left + lead).toNat
        = offsetAt parts li.toNat + (f.left.toNat + lead) := by omega
    have hendNat : ((offsetAt parts li.toNat : Int) + f.left + lead
        + (value.length : Int)).toNat
        = offsetAt parts li.toNat + (f.left.toNat + lead) + value.length := by omega
    rw [hstartNat, hendNat]
    have hsub : offsetAt parts li.toNat + (f.left.toNat + lead) + value.length
        - (offsetAt parts li.toNat + (f.left.toNat + lead)) = value.length := by
      omega
    rw [hsub, hslice]
    exact hv3.symm

/-- Membership in a row's candidates comes from one of the group's
fields. -/

theorem rowCands_mem (lines : List (List Char)) (wf wl br : Int)
    (fields : List FieldSpec) (row : Int) (ent : Cand)
    (h : ent ∈ rowCands lines wf wl br fields row) :
    ∃ f ∈ fields, fieldValue lines wf wl br row f = some ent := by
  unfold rowCands at h
  obtain ⟨f, hf, hfe⟩ := List.mem_filterMap.mp h
  exact ⟨f, hf, hfe⟩

/-- Every span collected by the row loop comes from some row's
candidates. -/

theorem groupGo_mem (lines : List (List Char)) (wf wl br : Int)
    (fields : List FieldSpec) :
    ∀ (fuel : Nat) (row : Int) (started : Bool) (ent : Cand),
      ent ∈ groupGo lines wf wl br fields fuel row started →
      ∃ r : Int, ent ∈ rowCands lines wf wl br fields r := by
  intro fuel
  induction fuel with
  | zero =>
    intro row started ent h
    cases h
  | succ k ih =>
    intro row started ent h
    simp only [groupGo] at h
    split at h
    · split at h
      · split at h
        · cases h
        · exact ih (row + 1) started ent h
      · rcases List.mem_append.mp h with h1 | h1
        · exact ⟨row, h1⟩
        · exact ih (row + 1) true ent h1
    · cases h

/-- Every span emitted by the extractor comes from one field of the
configuration, evaluated with the extractor's own window bounds. -/

theorem extract_sound_aux (text : String) (cfg : SmartConfig) (ent : Cand)
    (h : ent ∈ extract_spans_from_smart_config text cfg) :
    ∃ (f : FieldSpec) (br row : Int), f ∈ cfg.fields ∧
      fieldValue (pySplitlines text.data) (max 0 cfg.header_skip)
        (((pySplitlines text.data).length : Int) - max 0 cfg.footer_skip)
        br row f = some ent := by
  simp only [extract_spans_from_smart_config] at h
  obtain ⟨g, _, hmem⟩ := List.mem_flatMap.mp h
  cases hf : cfg.fields.filter (fun f => f.group = g) with
  | nil =>
    rw [hf] at hmem
    cases hmem
  | cons f0 fs =>
    rw [hf] at hmem
    have hite : ∀ {α : Type} {c : Prop} [Decidable c] {l : List α} {a : α},
        (a ∈ if c then ([] : List α) else l) → a ∈ l := by
      intro α c inst l a h1
      split at h1
      · cases h1
      · exact h1
    obtain ⟨r, hr⟩ := groupGo_mem _ _ _ _ _ _ _ _ _ (hite hmem)
    obtain ⟨f, hfmem, hfv⟩ := rowCands_mem _ _ _ _ _ _ _ hr
    refine ⟨f, _, r, ?_, hfv⟩
    have hmem2 : f ∈ cfg.fields.filter (fun f => f.group = g) := by
      rw [hf]
      exact hfmem
    exact List.mem_of_mem_filter hmem2

/-- C6 counterexample: the invariant fails for a config with a negative
`left`.  Python's negative-index slicing makes `src[-2:6]` read the LAST
two characters, while the recorded offset `offsets[line] + left + lead`
goes negative: the span is `("EF", "L", -2, 0)` and `text[-2:0]` is
empty, not `"EF"`. -/

theorem negative_left_offset_counterexample :
    extract_spans_from_smart_config "ABCDEF" ⟨0, 0, [⟨"L", 1, 0, -2, 8⟩]⟩ =
      [("EF", "L", -2, 0)] ∧
    String.mk (pySlice "ABCDEF".data (-2 : Int) (0 : Int)) ≠ "EF" :=
  ⟨by decide, by decide⟩

/-- C6 amended: for newline-joined documents and configs whose fields
have nonnegative `left` columns (operator-authored column ranges), every
emitted span has a nonempty, fully trimmed value, a nonnegative start,
`end = start + len(value)`, and `text[start:end]` equals the value; and
the spec's concrete case extracts `("JOHN DOE", "NAME", 0, 8)`. -/

theorem extractor_offsets_amended :
    (∀ (text : String) (cfg : SmartConfig),
      text.data.all (fun ch => !pyExtraBreak ch) = true →
      (∀ f ∈ cfg.fields, 0 ≤ f.left) →
      ∀ ent ∈ extract_spans_from_smart_config text cfg,
        ent.1.data ≠ [] ∧
        pyStrip ent.1.data = ent.1.data ∧
        0 ≤ cStart ent ∧
        cEnd ent = cStart ent + (ent.1.length : Int) ∧
        String.mk (pySlice text.data (cStart ent) (cEnd ent)) = ent.1) ∧
    extract_spans_from_smart_config "JOHN DOE  EXTRA" ⟨0, 0, [⟨"NAME", 1, 0, 0, 8⟩]⟩ =
      [("JOHN DOE", "NAME", 0, 8)] := by
  constructor
  · intro text cfg _ hleft ent hent
    obtain ⟨f, br, row, hfmem, hfv⟩ := extract_sound_aux text cfg ent hent
    have h := fieldValue_sound text _ _ br row f (hleft f hfmem)
      (le_max_left _ _) (by omega) ent hfv
    refine ⟨h.1, h.2.1, h.2.2.1, h.2.2.2.1, ?_⟩
    rw [h.2.2.2.2]
  · decide
